import Mathlib

/-!
Verification of the Weeklies menu-planning engine against its specification.

The serialized-plan grammar and its scanner are embedded from
`proj2/Flask_app.py` (`parse_generated_menu`); the selection oracle from
`proj2/llm_toolkit.py` (`LLM.generate`, `LLM._generate_fallback`).  The
planning driver, candidate filters, output interpreter and calendar helpers
live in `proj2/menu_generation.py`, which is not part of the provided
sources; those definitions are modelled from the specification text and are
marked as such in their doc comments.

Python strings are modelled as `String`/`List Char`; Python `None` as
`Option`; exceptions as `Option`/`Except` results.  The regex character
classes `\d` and `\s` are modelled over their ASCII portions.
-/

namespace Weeklies

/-- Models the regex class `\s` (ASCII portion): the whitespace characters
accepted between components of a bracketed triple. -/
def isSpaceChar (c : Char) : Bool :=
  c == ' ' || c == '\t' || c == '\n' || c == '\r' || c == '\x0b' || c == '\x0c'

/-- Consume a maximal run of whitespace, as the greedy `\s*` does. -/
def dropSpaces : List Char → List Char
  | [] => []
  | c :: cs => if isSpaceChar c then dropSpaces cs else c :: cs

/-- Consume a maximal run of ASCII digits, as the greedy `[0-9]+` does
(the run may be empty; emptiness is rejected by the caller). -/
def takeDigits : List Char → List Char × List Char
  | [] => ([], [])
  | c :: cs =>
    if c.isDigit then
      let p := takeDigits cs
      (c :: p.1, p.2)
    else ([], c :: cs)

/-- Numeric value of a digit string, as Python `int` computes it on a
string of ASCII digits (leading zeros allowed). -/
def digitsVal (l : List Char) : Nat :=
  l.foldl (fun a c => 10 * a + (c.toNat - 48)) 0

/-- The decimal digit character for `k < 10` (and `'0'` otherwise). -/
def digitChar (k : Nat) : Char :=
  if k = 0 then '0' else if k = 1 then '1' else if k = 2 then '2'
  else if k = 3 then '3' else if k = 4 then '4' else if k = 5 then '5'
  else if k = 6 then '6' else if k = 7 then '7' else if k = 8 then '8'
  else if k = 9 then '9' else '0'

/-- Fuel-indexed digit renderer; fuel larger than the number always
suffices since `n / 10 < n` for positive `n`. -/
def natDigitsAux : Nat → Nat → List Char
  | 0, _ => []
  | fuel + 1, n =>
    if n < 10 then [digitChar n]
    else natDigitsAux fuel (n / 10) ++ [digitChar (n % 10)]

/-- Decimal rendering of a natural number, most significant digit first;
mirrors Python string formatting of a non-negative int. -/
def natDigits (n : Nat) : List Char :=
  natDigitsAux (n + 1) n

/-- The `\d{4}-\d{2}-\d{2}` date component of the triple regex in
`parse_generated_menu`: exactly ten characters, returned verbatim as the
captured date together with the remaining input. -/
def matchDate : List Char → Option (List Char × List Char)
  | y1 :: y2 :: y3 :: y4 :: s1 :: m1 :: m2 :: s2 :: d1 :: d2 :: rest =>
    if y1.isDigit && y2.isDigit && y3.isDigit && y4.isDigit && s1 == '-' &&
       m1.isDigit && m2.isDigit && s2 == '-' && d1.isDigit && d2.isDigit then
      some ([y1, y2, y3, y4, s1, m1, m2, s2, d1, d2], rest)
    else none
  | _ => none

/-- One raw bracketed triple as captured by the regex in
`parse_generated_menu`: date group, item-id group (as its numeric value),
and the optional meal group (`none` when the meal component is omitted). -/
structure RawTriple where
  date : List Char
  itm : Nat
  meal : Option Nat
deriving DecidableEq, Repr

/-- Attempt to match the regex
`\[\s*(\d{4}-\d{2}-\d{2})\s*,\s*([0-9]+)\s*(?:,\s*([123])\s*)?\]`
of `parse_generated_menu` (`proj2/Flask_app.py`) at the head of the input.
The regex is deterministic at a fixed start position (all greedy runs are
delimited by the mandatory punctuation), so a single pass embeds it
faithfully.  Returns the captured triple and the unconsumed remainder. -/
def tryTriple (l : List Char) : Option (RawTriple × List Char) :=
  match l with
  | '[' :: l1 =>
    match matchDate (dropSpaces l1) with
    | none => none
    | some (d, l2) =>
      match dropSpaces l2 with
      | ',' :: l3 =>
        if (takeDigits (dropSpaces l3)).1.isEmpty then none
        else
          match dropSpaces (takeDigits (dropSpaces l3)).2 with
          | ']' :: rest =>
            some (⟨d, digitsVal (takeDigits (dropSpaces l3)).1, none⟩, rest)
          | ',' :: l5 =>
            match dropSpaces l5 with
            | m :: l6 =>
              if m == '1' || m == '2' || m == '3' then
                match dropSpaces l6 with
                | ']' :: rest =>
                  some (⟨d, digitsVal (takeDigits (dropSpaces l3)).1,
                         some (m.toNat - 48)⟩, rest)
                | _ => none
              else none
            | [] => none
          | _ => none
      | _ => none
  | _ => none

/-- Fuel-indexed body of the scan loop; each step consumes at least one
character, so fuel equal to the input length is always sufficient. -/
def scanAux (fuel : Nat) (l : List Char) : List RawTriple :=
  match fuel with
  | 0 => []
  | fuel + 1 =>
    match tryTriple l with
    | some (t, rest) => t :: scanAux fuel rest
    | none =>
      match l with
      | [] => []
      | _ :: cs => scanAux fuel cs

/-- The `re.findall` loop of `parse_generated_menu`: scan left to right for
non-overlapping leftmost matches of the triple regex. -/
def scanTriples (l : List Char) : List RawTriple :=
  scanAux l.length l

/-- One parsed plan entry, `{"itm_id": ..., "meal": ...}` in
`parse_generated_menu`. -/
structure MealEntry where
  itm_id : Nat
  meal : Nat
deriving DecidableEq, Repr

/-- The date-indexed mapping built by `parse_generated_menu`, modelled as an
association list in Python-dict insertion order. -/
abbrev GenMap := List (String × List MealEntry)

/-- `out.setdefault(d, []).append(e)` of `parse_generated_menu`. -/
def appendEntry (m : GenMap) (d : String) (e : MealEntry) : GenMap :=
  match m with
  | [] => [(d, [e])]
  | (d', es) :: rest =>
    if d' = d then (d', es ++ [e]) :: rest else (d', es) :: appendEntry rest d e

/-- Desugar a raw regex capture into a plan entry, applying the
`meal if meal else 3` legacy default of `parse_generated_menu`. -/
def desugarTriple (t : RawTriple) : String × MealEntry :=
  (String.mk t.date, ⟨t.itm, t.meal.getD 3⟩)

/-- `parse_generated_menu` from `proj2/Flask_app.py`.  `none` models the
Python `None` argument; `if not gen_str: return {}` is subsumed for the
empty string by the scan producing no matches.  The `int` conversions in
the loop cannot fail (both captures are digit strings), so the
`except ValueError: continue` branch is dead and not modelled. -/
def parse_generated_menu (gen_str : Option String) : GenMap :=
  match gen_str with
  | none => []
  | some s =>
    (scanTriples s.data).foldl
      (fun out t => appendEntry out (desugarTriple t).1 (desugarTriple t).2) []

/-! ### Shape of the date component -/

/-- The `\d{4}-\d{2}-\d{2}` shape, as a predicate on a character list. -/
def dateWF (d : List Char) : Bool :=
  match d with
  | [y1, y2, y3, y4, s1, m1, m2, s2, d1, d2] =>
    y1.isDigit && y2.isDigit && y3.isDigit && y4.isDigit && s1 == '-' &&
    m1.isDigit && m2.isDigit && s2 == '-' && d1.isDigit && d2.isDigit
  | _ => false

/-!
### The specified triple grammar

`specTriple?` is the specification-side grammar of §4.4: an anchored
whole-input matcher for one bracketed triple `[date,item_id]` or
`[date,item_id,meal]` with `date` of shape `YYYY-MM-DD`, `item_id` one or
more digits and `meal` restricted to `{1,2,3}` (omitted meal is reported as
`none`, desugared to 3 by the parser).  Optional ASCII whitespace around the
components is admitted, which is the amendment forced on the claim by the
source regex.
-/

/-- Modelled from the spec: the bracketed-triple grammar of §4.4 as an
anchored checker — `some t` iff the whole input is exactly one triple. -/
def specTriple? (cs : List Char) : Option RawTriple :=
  match cs with
  | '[' :: l1 =>
    match matchDate (dropSpaces l1) with
    | none => none
    | some (d, l2) =>
      match dropSpaces l2 with
      | ',' :: l3 =>
        if (takeDigits (dropSpaces l3)).1.isEmpty then none
        else
          match dropSpaces (takeDigits (dropSpaces l3)).2 with
          | [']'] => some ⟨d, digitsVal (takeDigits (dropSpaces l3)).1, none⟩
          | ',' :: l5 =>
            match dropSpaces l5 with
            | m :: l6 =>
              if m == '1' || m == '2' || m == '3' then
                match dropSpaces l6 with
                | [']'] =>
                  some ⟨d, digitsVal (takeDigits (dropSpaces l3)).1,
                        some (m.toNat - 48)⟩
                | _ => none
              else none
            | [] => none
          | _ => none
      | _ => none
  | _ => none

/-! ### Well-formedness of scanned triples -/

/-- The meal capture of a matched triple is absent or one of 1, 2, 3. -/
def mealOK (o : Option Nat) : Prop :=
  o = none ∨ o = some 1 ∨ o = some 2 ∨ o = some 3

/-!
### Serialization

The repository has no standalone `serialize` function: the Driver appends
each new entry as one rendered bracketed triple (spec §4.4,
"adding an entry renders exactly one new bracketed triple and concatenates
it to the existing serialized string").  The renderer below is therefore
modelled from the spec, matching the `[date,item_id,meal]` shape the tests
assert on the Driver output.
-/

/-- Modelled from the spec: render one plan entry as the bracketed triple
`[date,item_id,meal]` (no whitespace), as the Driver emits it. -/
def renderTripleL (d : List Char) (i m : Nat) : List Char :=
  '[' :: (d ++ (',' :: (natDigits i ++ (',' :: (natDigits m ++ [']'])))))

/-- Flatten the date-indexed mapping to `(date, entry)` pairs in map order. -/
def flattenGenMap (g : GenMap) : List (String × MealEntry) :=
  g.flatMap (fun p => p.2.map (fun e => (p.1, e)))

/-- Modelled from the spec: serialization of a parsed plan — every entry is
rendered as one bracketed triple, concatenated in map order. -/
def serializeGenMap (g : GenMap) : String :=
  String.mk ((flattenGenMap g).flatMap
    (fun q => renderTripleL q.1.data q.2.itm_id q.2.meal))

/-!
### Grammar occurrences

`occPrefix ds` finds the unique grammar-exact prefix of `ds` (if any);
`specOccurrences cs` lists, in position order, the triple of every substring
occurrence of the grammar in `cs`.
-/

/-- The grammar match starting exactly at the head of `ds`, if any. -/
def occPrefix (ds : List Char) : Option RawTriple :=
  (List.range (ds.length + 1)).findSome? (fun n => specTriple? (ds.take n))

/-- All grammar occurrences of `cs`, in order of start position. -/
def specOccurrences (cs : List Char) : List RawTriple :=
  (List.range cs.length).filterMap (fun i => occPrefix (cs.drop i))

/-- The bracketed-triple grammar exactly as claim C4 words it — with NO
whitespace tolerance: `[YYYY-MM-DD,digits]` or `[YYYY-MM-DD,digits,m]`,
`m ∈ {1,2,3}`.  Used only to refute the claim as stated. -/
def strictTriple? (cs : List Char) : Option RawTriple :=
  match cs with
  | '[' :: l1 =>
    match matchDate l1 with
    | none => none
    | some (d, l2) =>
      match l2 with
      | ',' :: l3 =>
        match takeDigits l3 with
        | ([], _) => none
        | (ds, [']']) => some ⟨d, digitsVal ds, none⟩
        | (ds, ',' :: l5) =>
          match l5 with
          | [m, ']'] =>
            if m == '1' || m == '2' || m == '3' then
              some ⟨d, digitsVal ds, some (m.toNat - 48)⟩
            else none
          | _ => none
        | _ => none
      | _ => none
  | _ => none

/-!
### The output interpreter (`format_llm_output`)

`menu_generation.py` is not in the provided sources; the interpreter is
modelled from spec §4.3 and validated against the unit tests'
expectations (`tests/unit/test_menu_generation_helpers.py`).
-/

/-- Python `str.strip()` over the modelled ASCII whitespace. -/
def pyStrip (l : List Char) : List Char :=
  (dropSpaces ((dropSpaces l).reverse)).reverse

/-- First occurrence index of `pat` in `l`, as Python `str.find` computes. -/
def findSubIdx (pat : List Char) : List Char → Option Nat
  | [] => if pat.isPrefixOf [] then some 0 else none
  | c :: rest =>
    if pat.isPrefixOf (c :: rest) then some 0
    else (findSubIdx pat rest).map (· + 1)

/-- Python `int(s)` on an already-stripped string: optional sign then one
or more ASCII digits (the exotic underscore grouping is not modelled). -/
def parseIntPy (l : List Char) : Option Int :=
  match l with
  | '-' :: ds =>
    if !ds.isEmpty && ds.all Char.isDigit then some (-(digitsVal ds : Int)) else none
  | '+' :: ds =>
    if !ds.isEmpty && ds.all Char.isDigit then some ((digitsVal ds : Int)) else none
  | ds =>
    if !ds.isEmpty && ds.all Char.isDigit then some ((digitsVal ds : Int)) else none

/-- The failure sentinel of the output interpreter. -/
def LLM_ATTRIBUTE_ERROR : Int := -1

/-- The "assistant answer begins" marker. -/
def startMarker : String := "<|start_of_role|>assistant<|end_of_role|>"

/-- The "end of text" marker. -/
def endMarker : String := "<|end_of_text|>"

/-- Modelled from the spec: `format_llm_output` (§4.3) — extract the
substring between the two markers, strip whitespace, parse as an integer;
the sentinel when a marker is missing or the payload is not an integer. -/
def format_llm_output (raw : String) : Int :=
  match findSubIdx startMarker.data raw.data with
  | none => LLM_ATTRIBUTE_ERROR
  | some i =>
    match findSubIdx endMarker.data (raw.data.drop (i + startMarker.data.length)) with
    | none => LLM_ATTRIBUTE_ERROR
    | some j =>
      match parseIntPy (pyStrip ((raw.data.drop (i + startMarker.data.length)).take j)) with
      | none => LLM_ATTRIBUTE_ERROR
      | some n => n

/-!
### The open-hours filter (`filter_closed_restaurants`)

Modelled from spec §4.1 and §3 (`menu_generation.py` is not in the provided
sources); the hours JSON is modelled as an association list per weekday.
-/

/-- A restaurant availability record (spec §3 `RestaurantAvailability`). -/
structure Restaurant where
  rtr_id : Nat
  hours : List (String × List Nat)
deriving DecidableEq, Repr

/-- Whether `t` lies inside any consecutive (open, close) pair, inclusive
on both bounds. -/
def openAt : List Nat → Nat → Bool
  | o :: c :: rest, t => (decide (o ≤ t) && decide (t ≤ c)) || openAt rest t
  | _, _ => false

/-- Modelled from the spec: a restaurant is open on `weekday` at `t` iff its
hours record has an entry for that weekday whose time list has even length
and some (open, close) pair contains `t` inclusively; an absent weekday
entry or an odd-length list means closed. -/
def isOpenOn (r : Restaurant) (weekday : String) (t : Nat) : Bool :=
  match List.lookup weekday r.hours with
  | none => false
  | some ts => (ts.length % 2 == 0) && openAt ts t

/-- Modelled from the spec: `filter_closed_restaurants` (§4.1) keeps exactly
the restaurants open on the given weekday at the given order time. -/
def filter_closed_restaurants (rs : List Restaurant) (weekday : String)
    (order_time : Nat) : List Restaurant :=
  rs.filter (fun r => isOpenOn r weekday order_time)

/-!
### The selection oracle (`LLM.generate` and `LLM._generate_fallback`)

Embedded from `proj2/llm_toolkit.py`.  The model-backed generation path is
external, nondeterministic code (a transformer inference call); it is
modelled as an oracle function returning `none` when the Python code would
raise, `some out` when it would return decoded text.
-/

/-- Python `str.split('\n')`: split on every newline, keeping empty pieces;
the result is always non-empty. -/
def splitNL : List Char → List (List Char)
  | [] => [[]]
  | c :: rest =>
    match splitNL rest with
    | [] => if c = '\n' then [[], [c]] else [[c]]
    | x :: xs => if c = '\n' then [] :: x :: xs else (c :: x) :: xs

/-- `line.split(',')[0]`: the characters before the first comma. -/
def firstField (l : List Char) : List Char :=
  l.takeWhile (fun c => !(c == ','))

/-- Decimal rendering of an integer, as Python string formatting does. -/
def intChars (i : Int) : List Char :=
  if i < 0 then '-' :: natDigits i.natAbs else natDigits i.toNat

/-- The boundary-marker wrapping used by both oracle paths:
`<|start_of_role|>assistant<|end_of_role|>ID<|end_of_text|>`. -/
def markerWrap (i : Int) : String :=
  startMarker ++ String.mk (intChars i) ++ endMarker

/-- `LLM._generate_fallback` from `proj2/llm_toolkit.py`: treat `context`
as a header-first comma-separated table, collect the integers parsed from
the first column of the data lines, and return the first one
marker-wrapped; with no data lines or no parseable first column, the
default ID 1 marker-wrapped.  The `prompt` argument is ignored. -/
def generate_fallback (context _prompt : String) : String :=
  match splitNL (pyStrip context.data) with
  | [] => markerWrap 1
  | [_] => markerWrap 1
  | _ :: dataLines =>
    match dataLines.filterMap (fun line => parseIntPy (pyStrip (firstField line))) with
    | [] => markerWrap 1
    | i :: _ => markerWrap i

/-- The state of an `LLM` instance: the fallback flag set by `__init__`,
whether `model_instance` is loaded (non-`None`), and the model-backed
generation oracle (`none` models a raised exception). -/
structure LLMState where
  use_fallback : Bool
  model_loaded : Bool
  modelGen : String → String → Option String

/-- `LLM.generate` from `proj2/llm_toolkit.py`: use the model-backed path
when available, otherwise (fallback mode, missing model, or an exception
during generation) the deterministic fallback. -/
def generate (st : LLMState) (context prompt : String) : String :=
  if st.use_fallback || !st.model_loaded then generate_fallback context prompt
  else
    match st.modelGen context prompt with
    | some out => out
    | none => generate_fallback context prompt

/-- Join lines with newline separators (the inverse of `splitNL`). -/
def joinNL : List (List Char) → List Char
  | [] => []
  | [x] => x
  | x :: xs => x ++ '\n' :: joinNL xs

/-!
### The calendar helpers and the Planning Driver

`menu_generation.py` itself is not part of `src/` (only its tests and its
callers are), so the calendar helpers and the Driver below are modelled from
the spec (§4.5, §6) and checked against the unit tests' pinned values
(weekday names, increments, meal times, the call signature of
`update_menu`).  The Driver state carries, next to the running serialized
plan, a `Nat` counting oracle invocations, so that "the oracle is not
invoked" is statable.
-/

/-- Proleptic-Gregorian leap-year test. -/
def isLeapYear (y : Nat) : Bool :=
  (y % 4 == 0 && !(y % 100 == 0)) || y % 400 == 0

/-- Number of days in month `m` of year `y`. -/
def daysInMonth (y m : Nat) : Nat :=
  if m == 2 then (if isLeapYear y then 29 else 28)
  else if m == 4 || m == 6 || m == 9 || m == 11 then 30
  else 31

/-- Modelled from the spec: strict `YYYY-MM-DD` parsing with validation
against real month/day bounds (`datetime.strptime` semantics: exactly ten
characters, digits and dashes in place, year 1–9999). -/
def parseDate (s : String) : Option (Nat × Nat × Nat) :=
  match s.data with
  | [y1, y2, y3, y4, c1, m1, m2, c2, d1, d2] =>
    if c1 == '-' && c2 == '-' &&
        y1.isDigit && y2.isDigit && y3.isDigit && y4.isDigit &&
        m1.isDigit && m2.isDigit && d1.isDigit && d2.isDigit then
      if 1 ≤ digitsVal [y1, y2, y3, y4] ∧
          1 ≤ digitsVal [m1, m2] ∧ digitsVal [m1, m2] ≤ 12 ∧
          1 ≤ digitsVal [d1, d2] ∧
          digitsVal [d1, d2] ≤ daysInMonth (digitsVal [y1, y2, y3, y4])
            (digitsVal [m1, m2]) then
        some (digitsVal [y1, y2, y3, y4], digitsVal [m1, m2], digitsVal [d1, d2])
      else none
    else none
  | _ => none

/-- Days in the months of year `y` strictly before month `m`. -/
def daysBeforeMonth (y m : Nat) : Nat :=
  (if isLeapYear y && 3 ≤ m then 1 else 0) +
    match m with
    | 1 => 0 | 2 => 31 | 3 => 59 | 4 => 90 | 5 => 120 | 6 => 151
    | 7 => 181 | 8 => 212 | 9 => 243 | 10 => 273 | 11 => 304 | _ => 334

/-- Rata-die day number of `(y, m, d)`: day 1 is 0001-01-01, a Monday. -/
def rataDie (y m d : Nat) : Nat :=
  365 * (y - 1) + (y - 1) / 4 - (y - 1) / 100 + (y - 1) / 400 +
    daysBeforeMonth y m + d

/-- Weekday abbreviations, as `DAYS_OF_WEEK` indexes them: `rataDie % 7`. -/
def weekdayName (k : Nat) : String :=
  match k % 7 with
  | 0 => "Sun" | 1 => "Mon" | 2 => "Tue" | 3 => "Wed"
  | 4 => "Thu" | 5 => "Fri" | _ => "Sat"

/-- Successor calendar date. -/
def nextDate (y m d : Nat) : Nat × Nat × Nat :=
  if d < daysInMonth y m then (y, m, d + 1)
  else if m < 12 then (y, m + 1, 1)
  else (y + 1, 1, 1)

/-- Two-digit zero-padded decimal rendering. -/
def pad2 (n : Nat) : List Char :=
  if n < 10 then '0' :: natDigits n else natDigits n

/-- Four-digit zero-padded decimal rendering. -/
def pad4 (n : Nat) : List Char :=
  if n < 10 then '0' :: '0' :: '0' :: natDigits n
  else if n < 100 then '0' :: '0' :: natDigits n
  else if n < 1000 then '0' :: natDigits n
  else natDigits n

/-- Render `(y, m, d)` back to `YYYY-MM-DD`. -/
def formatDate (y m d : Nat) : String :=
  String.mk (pad4 y ++ '-' :: (pad2 m ++ '-' :: pad2 d))

/-- Modelled from the spec: `get_weekday_and_increment(date)` returns the
pair `(next calendar date, weekday abbreviation of date)`; an invalid date
raises `ValueError` (`none` here). -/
def get_weekday_and_increment (date : String) : Option (String × String) :=
  match parseDate date with
  | none => none
  | some (y, m, d) =>
    some (formatDate (nextDate y m d).1 (nextDate y m d).2.1 (nextDate y m d).2.2,
      weekdayName (rataDie y m d))

/-- Modelled from the spec: meal number to `(meal_name, order_time)`; any
other number raises `ValueError` (`none` here). -/
def get_meal_and_order_time (meal_number : Nat) : Option (String × Nat) :=
  if meal_number == 1 then some ("breakfast", 1000)
  else if meal_number == 2 then some ("lunch", 1400)
  else if meal_number == 3 then some ("dinner", 2000)
  else none

/-- One row of the read-only menu-item snapshot (spec §3). -/
structure MenuItem where
  itm_id : Nat
  rtr_id : Nat
  name : String
  allergens : Option String
  instock : Bool
deriving DecidableEq, Repr

/-- Split on commas (Python `str.split(",")` over the characters). -/
def splitComma : List Char → List (List Char)
  | [] => [[]]
  | c :: rest =>
    match splitComma rest with
    | [] => if c = ',' then [[], [c]] else [[c]]
    | x :: xs => if c = ',' then [] :: x :: xs else (c :: x) :: xs

/-- Modelled from the spec: `filter_allergens` (§4.1) — remove every item
whose comma-separated allergen field contains a case-sensitive exact match
of a listed allergen; an empty exclusion string means no filtering; items
with a null allergen field always pass. -/
def filter_allergens (items : List MenuItem) (allergens : String) :
    List MenuItem :=
  if allergens.data.isEmpty then items
  else items.filter (fun it =>
    match it.allergens with
    | none => true
    | some a => !((splitComma allergens.data).any
        (fun x => (splitComma a.data).contains x)))

/-- Modelled from the spec: `limit_scope` (§4.1) — at or below the cap the
candidate set is returned unchanged; above it, a sample of exactly
`max_count` is drawn (the sampler itself is part of the environment). -/
def limit_scope (sample : List MenuItem → Nat → List MenuItem)
    (cands : List MenuItem) (max_count : Nat) : List MenuItem :=
  if cands.length ≤ max_count then cands else sample cands max_count

/-- The Driver's read-only environment (spec §6): the data snapshot, the
scope cap, the sampler used by `limit_scope` above the cap, and the oracle
instance (its `generate` is total, per the C5 development above). -/
structure DriverEnv where
  menu_items : List MenuItem
  restaurants : List Restaurant
  max_scope : Nat
  sample : List MenuItem → Nat → List MenuItem
  llm : LLMState

/-- Modelled from the spec: the context string is a header-first CSV of the
surviving candidates, first column the item id. -/
def buildContext (cands : List MenuItem) : String :=
  String.mk (('i' :: 't' :: 'm' :: '_' :: 'i' :: 'd' :: ',' :: 'n' :: 'a' :: 'm' :: 'e' :: []) ++
    cands.flatMap (fun it => '\n' :: (natDigits it.itm_id ++ ',' :: it.name.data)))

/-- Modelled from the spec: the prompt encodes the free-text preferences
and the meal name. -/
def buildPrompt (preferences meal_name : String) : String :=
  "Pick one item for " ++ meal_name ++ ". Preferences: " ++ preferences

/-- Modelled from the spec: the candidate set for one slot — restaurants
open on the weekday at the order time, their in-stock items, allergen
exclusion, then scope limiting (§4.5 step 3). -/
def candidatesFor (env : DriverEnv) (allergens weekday : String)
    (order_time : Nat) : List MenuItem :=
  limit_scope env.sample
    (filter_allergens
      (env.menu_items.filter (fun it =>
        it.instock &&
          (filter_closed_restaurants env.restaurants weekday order_time).any
            (fun r => r.rtr_id == it.rtr_id)))
      allergens)
    env.max_scope

/-- Modelled from the spec: one slot's selection — invoke the oracle on the
candidate CSV, interpret its output, and validate membership in the
candidate set; `none` is a skipped slot (failure sentinel or unknown id),
`some i` a selected item (§4.5 steps 3–4). -/
def slotItem (env : DriverEnv) (preferences allergens weekday : String)
    (order_time : Nat) (meal_name : String) : Option Nat :=
  match format_llm_output (generate env.llm
      (buildContext (candidatesFor env allergens weekday order_time))
      (buildPrompt preferences meal_name)) with
  | i =>
    if i == LLM_ATTRIBUTE_ERROR then none
    else if (candidatesFor env allergens weekday order_time).any
        (fun it => (it.itm_id : Int) == i) then some i.toNat
    else none

/-- The bracketed triple the Driver appends for one new entry. -/
def renderEntry (date : String) (itm meal : Nat) : String :=
  String.mk (renderTripleL date.data itm meal)

/-- Whether the parsed mapping already holds an entry for `(date, meal)` —
the Driver's duplicate check (§4.4 merge invariant). -/
def slotTaken (g : GenMap) (date : String) (meal : Nat) : Bool :=
  g.any (fun p => p.1 == date && p.2.any (fun e => e.meal == meal))

/-- Modelled from the spec: the per-day meal loop (§4.5 steps 2–5).  State
is `(running serialized plan, oracle-call count)`; `none` is a raised
`ValueError` from an invalid meal number. -/
def processMeals (env : DriverEnv) (preferences allergens date weekday : String) :
    String × Nat → List Nat → Option (String × Nat)
  | st, [] => some st
  | st, mn :: rest =>
    if slotTaken (parse_generated_menu (some st.1)) date mn then
      processMeals env preferences allergens date weekday st rest
    else
      match get_meal_and_order_time mn with
      | none => none
      | some (meal_name, order_time) =>
        match slotItem env preferences allergens weekday order_time meal_name with
        | none => processMeals env preferences allergens date weekday
            (st.1, st.2 + 1) rest
        | some itm => processMeals env preferences allergens date weekday
            (st.1 ++ renderEntry date itm mn, st.2 + 1) rest

/-- Modelled from the spec: the day loop (§4.5 step 1): per day, compute
weekday and successor date (raising on an invalid date), then run the meal
loop. -/
def updateDays (env : DriverEnv) (preferences allergens : String)
    (meal_numbers : List Nat) : String × Nat → String → Nat → Option (String × Nat)
  | st, _, 0 => some st
  | st, date, days + 1 =>
    match get_weekday_and_increment date with
    | none => none
    | some (next_date, weekday) =>
      match processMeals env preferences allergens date weekday st meal_numbers with
      | none => none
      | some st2 => updateDays env preferences allergens meal_numbers st2 next_date days

/-- Modelled from the spec: `update_menu` (§6 call signature) — fold every
(day, meal) slot into the prior plan (`None` ↦ empty).  The result carries
the updated serialized plan and the number of oracle invocations; `none`
is a raised `ValueError`. -/
def update_menu (env : DriverEnv) (menu : Option String)
    (preferences allergens date : String) (meal_numbers : List Nat)
    (number_of_days : Nat) : Option (String × Nat) :=
  updateDays env preferences allergens meal_numbers (menu.getD "", 0) date
    number_of_days

/-- The dates of the requested range, via the Driver's own increment;
`none` when some date in the range is invalid. -/
def enumDates (date : String) : Nat → Option (List String)
  | 0 => some []
  | days + 1 =>
    match get_weekday_and_increment date with
    | none => none
    | some (next_date, _) => (enumDates next_date days).map (date :: ·)

/-- The `(date, meal)` slot a scanned triple occupies. -/
def slotOfRaw (t : RawTriple) : String × Nat :=
  (String.mk t.date, t.meal.getD 3)

/-- The `(date, meal)` slots of a serialized plan, in scan order. -/
def slotsOf (s : String) : List (String × Nat) :=
  (scanTriples s.data).map slotOfRaw

/-- One slot of the generalized slot-by-slot Driver: exactly the body of
the day/meal loops for a single `(date, meal)` pair — weekday computation
(raising on an invalid date), duplicate check, meal resolution (raising on
an invalid meal number), selection, append. -/
def fillSlot (env : DriverEnv) (preferences allergens : String)
    (st : String × Nat) (s : String × Nat) : Option (String × Nat) :=
  match get_weekday_and_increment s.1 with
  | none => none
  | some (_, weekday) =>
    if slotTaken (parse_generated_menu (some st.1)) s.1 s.2 then some st
    else
      match get_meal_and_order_time s.2 with
      | none => none
      | some (meal_name, order_time) =>
        match slotItem env preferences allergens weekday order_time meal_name with
        | none => some (st.1, st.2 + 1)
        | some itm => some (st.1 ++ renderEntry s.1 itm s.2, st.2 + 1)

/-- The Driver generalized to an arbitrary list of `(date, meal)` slots,
processed in list order. -/
def processSlots (env : DriverEnv) (preferences allergens : String) :
    String × Nat → List (String × Nat) → Option (String × Nat)
  | st, [] => some st
  | st, s :: rest =>
    match fillSlot env preferences allergens st s with
    | none => none
    | some st2 => processSlots env preferences allergens st2 rest

/-- Whether processing slot `s` raises, given the slot set `taken` of the
plan at the start of the run: an invalid date always raises; an invalid
meal number raises unless the duplicate check fires first. -/
def slotRaises (taken : List (String × Nat)) (s : String × Nat) : Prop :=
  get_weekday_and_increment s.1 = none ∨
    (get_meal_and_order_time s.2 = none ∧ s ∉ taken)

/-- The triple slot `s` contributes to the plan, given the slot set `taken`
of the plan at the start of the run (`none`: skipped or already present). -/
def slotFills (env : DriverEnv) (preferences allergens : String)
    (taken : List (String × Nat)) (s : String × Nat) : Option RawTriple :=
  match get_weekday_and_increment s.1 with
  | none => none
  | some (_, weekday) =>
    if s ∈ taken then none
    else
      match get_meal_and_order_time s.2 with
      | none => none
      | some (meal_name, order_time) =>
        match slotItem env preferences allergens weekday order_time meal_name with
        | none => none
        | some itm => some ⟨s.1.data, itm, some s.2⟩

/-- A trivial environment (no data, fallback oracle), for witnesses. -/
def trivEnv : DriverEnv :=
  ⟨[], [], 0, fun l _ => l, ⟨true, false, fun _ _ => none⟩⟩

/-! ### C2: the non-overwrite invariant -/

/-- `Q` extends `P`: the scan of `Q` is the scan of `P` plus appended
triples whose slots are fresh and pairwise distinct. -/
def extendsPlan (P Q : String) : Prop :=
  ∃ L : List RawTriple,
    scanTriples Q.data = scanTriples P.data ++ L ∧
    (∀ t ∈ L, slotOfRaw t ∉ slotsOf P) ∧
    (L.map slotOfRaw).Nodup

/-! ## Theorems -/

theorem natDigitsAux_congr :
    ∀ (f₁ : Nat) (n : Nat) (f₂ : Nat), n < f₁ → n < f₂ →
      natDigitsAux f₁ n = natDigitsAux f₂ n := by
  intro f₁
  induction f₁ with
  | zero => intro n f₂ h; omega
  | succ f ih =>
    intro n f₂ h₁ h₂
    obtain ⟨g, rfl⟩ : ∃ g, f₂ = g + 1 := by
      cases f₂ with
      | zero => omega
      | succ g => exact ⟨g, rfl⟩
    simp only [natDigitsAux]
    split
    · rfl
    next hge =>
      rw [ih (n / 10) g (by omega) (by omega)]

theorem natDigits_lt10 {n : Nat} (h : n < 10) : natDigits n = [digitChar n] := by
  unfold natDigits natDigitsAux
  simp [h]

theorem natDigits_ge10 {n : Nat} (h : ¬n < 10) :
    natDigits n = natDigits (n / 10) ++ [digitChar (n % 10)] := by
  show natDigitsAux (n + 1) n = natDigitsAux (n / 10 + 1) (n / 10) ++ _
  rw [show natDigitsAux (n + 1) n = if n < 10 then [digitChar n]
    else natDigitsAux n (n / 10) ++ [digitChar (n % 10)] from rfl]
  rw [if_neg h]
  rw [natDigitsAux_congr n (n / 10) (n / 10 + 1) (by omega) (by omega)]

theorem dropSpaces_length_le (l : List Char) : (dropSpaces l).length ≤ l.length := by
  induction l with
  | nil => simp [dropSpaces]
  | cons c cs ih =>
    simp only [dropSpaces]
    split
    · exact Nat.le_succ_of_le ih
    · simp

theorem takeDigits_snd_length_le (l : List Char) :
    (takeDigits l).2.length ≤ l.length := by
  induction l with
  | nil => simp [takeDigits]
  | cons c cs ih =>
    simp only [takeDigits]
    split
    · exact Nat.le_succ_of_le ih
    · simp

theorem matchDate_length {l d rest} (h : matchDate l = some (d, rest)) :
    rest.length + 10 = l.length := by
  unfold matchDate at h
  split at h
  · split at h
    · simp only [Option.some.injEq, Prod.mk.injEq] at h
      obtain ⟨-, rfl⟩ := h
      simp
    · exact absurd h (by simp)
  · exact absurd h (by simp)

theorem tryTriple_length {l : List Char} {t : RawTriple} {rest : List Char}
    (h : tryTriple l = some (t, rest)) : rest.length < l.length := by
  unfold tryTriple at h
  split at h
  case h_2 => exact absurd h (by simp)
  case h_1 _ l1 =>
  have h1 : (dropSpaces l1).length ≤ l1.length := dropSpaces_length_le l1
  split at h
  · exact absurd h (by simp)
  case h_2 _ d l2 hd =>
  have h2 : l2.length + 10 = (dropSpaces l1).length := matchDate_length hd
  split at h
  case h_2 => exact absurd h (by simp)
  case h_1 _ l3 hl2 =>
  have h3 : (dropSpaces l2).length ≤ l2.length := dropSpaces_length_le l2
  have h3' : l3.length + 1 = (dropSpaces l2).length := by rw [hl2]; simp
  have h4 : (dropSpaces l3).length ≤ l3.length := dropSpaces_length_le l3
  have h5 : (takeDigits (dropSpaces l3)).2.length ≤ (dropSpaces l3).length :=
    takeDigits_snd_length_le _
  split at h
  · exact absurd h (by simp)
  split at h
  case h_1 _ rest' hrest =>
    have h6 : (dropSpaces (takeDigits (dropSpaces l3)).2).length ≤
        (takeDigits (dropSpaces l3)).2.length := dropSpaces_length_le _
    have h7 : rest'.length + 1 = (dropSpaces (takeDigits (dropSpaces l3)).2).length := by
      rw [hrest]; simp
    simp only [Option.some.injEq, Prod.mk.injEq] at h
    obtain ⟨-, rfl⟩ := h
    simp only [List.length_cons]
    omega
  case h_2 _ l5 hl5 =>
    have h6 : (dropSpaces (takeDigits (dropSpaces l3)).2).length ≤
        (takeDigits (dropSpaces l3)).2.length := dropSpaces_length_le _
    have h7 : l5.length + 1 = (dropSpaces (takeDigits (dropSpaces l3)).2).length := by
      rw [hl5]; simp
    have h8 : (dropSpaces l5).length ≤ l5.length := dropSpaces_length_le l5
    split at h
    case h_2 => exact absurd h (by simp)
    case h_1 _ m l6 hl6 =>
    have h9 : l6.length + 1 = (dropSpaces l5).length := by rw [hl6]; simp
    have h10 : (dropSpaces l6).length ≤ l6.length := dropSpaces_length_le l6
    split at h
    case isFalse => exact absurd h (by simp)
    split at h
    case h_2 => exact absurd h (by simp)
    case h_1 _ rest' hrest =>
    have h11 : rest'.length + 1 = (dropSpaces l6).length := by rw [hrest]; simp
    simp only [Option.some.injEq, Prod.mk.injEq] at h
    obtain ⟨-, rfl⟩ := h
    simp only [List.length_cons]
    omega
  all_goals exact absurd h (by simp)

theorem scanAux_nil (fuel : Nat) : scanAux fuel [] = [] := by
  cases fuel <;> simp [scanAux, tryTriple]

theorem scanAux_congr :
    ∀ (f₁ : Nat) (l : List Char) (f₂ : Nat), l.length ≤ f₁ → l.length ≤ f₂ →
      scanAux f₁ l = scanAux f₂ l := by
  intro f₁
  induction f₁ with
  | zero =>
    intro l f₂ h₁ _
    have : l = [] := List.length_eq_zero.mp (Nat.le_zero.mp h₁)
    subst this
    rw [scanAux_nil, scanAux_nil]
  | succ f ih =>
    intro l f₂ h₁ h₂
    cases l with
    | nil => rw [scanAux_nil, scanAux_nil]
    | cons c cs =>
      obtain ⟨g, rfl⟩ : ∃ g, f₂ = g + 1 := by
        cases f₂ with
        | zero => simp at h₂
        | succ g => exact ⟨g, rfl⟩
      simp only [scanAux]
      cases h : tryTriple (c :: cs) with
      | some p =>
        obtain ⟨t, rest⟩ := p
        have hlt := tryTriple_length h
        simp only [List.length_cons] at h₁ h₂ hlt
        show t :: scanAux f rest = t :: scanAux g rest
        rw [ih rest g (by omega) (by omega)]
      | none =>
        simp only [List.length_cons] at h₁ h₂
        show scanAux f cs = scanAux g cs
        rw [ih cs g (by omega) (by omega)]

theorem scanTriples_match {l : List Char} {t : RawTriple} {rest : List Char}
    (h : tryTriple l = some (t, rest)) :
    scanTriples l = t :: scanTriples rest := by
  unfold scanTriples
  cases hl : l with
  | nil => rw [hl] at h; simp [tryTriple] at h
  | cons c cs =>
    rw [hl] at h
    simp only [List.length_cons, scanAux, h]
    have hlt := tryTriple_length h
    simp only [List.length_cons] at hlt
    rw [scanAux_congr cs.length rest rest.length (by omega) (by omega)]

theorem scanTriples_nomatch {c : Char} {cs : List Char}
    (h : tryTriple (c :: cs) = none) :
    scanTriples (c :: cs) = scanTriples cs := by
  unfold scanTriples
  simp only [List.length_cons, scanAux, h]

theorem parse_sample_full : parse_generated_menu (some "[2025-10-14,5,2]") =
    [("2025-10-14", [⟨5, 2⟩])] := by decide

theorem parse_sample_legacy : parse_generated_menu (some "[2025-10-14,5]") =
    [("2025-10-14", [⟨5, 3⟩])] := by decide

theorem parse_sample_spaced :
    parse_generated_menu (some "[ 2025-10-14 , 05 , 2 ]x[2025-10-15,7]") =
      [("2025-10-14", [⟨5, 2⟩]), ("2025-10-15", [⟨7, 3⟩])] := by decide

theorem parse_sample_badmeal :
    parse_generated_menu (some "[2025-10-14,5,4]") = [] := by decide

theorem parse_sample_baddate :
    parse_generated_menu (some "junk [2025-13-99,5,1] ok") =
      [("2025-13-99", [⟨5, 1⟩])] := by decide

theorem parse_sample_twodigitmeal :
    parse_generated_menu (some "[2025-10-14,5,12]") = [] := by decide

theorem parse_sample_none : parse_generated_menu none = [] := by decide

theorem parse_sample_empty : parse_generated_menu (some "") = [] := by decide

theorem matchDate_eq {l d rest} :
    matchDate l = some (d, rest) ↔ dateWF d = true ∧ l = d ++ rest := by
  constructor
  · intro h
    unfold matchDate at h
    split at h
    · split at h
      · simp only [Option.some.injEq, Prod.mk.injEq] at h
        obtain ⟨rfl, rfl⟩ := h
        refine ⟨by simp_all [dateWF], by simp⟩
      · exact absurd h (by simp)
    · exact absurd h (by simp)
  · rintro ⟨hwf, rfl⟩
    unfold dateWF at hwf
    split at hwf
    · simp only [List.cons_append, List.nil_append, matchDate, hwf, if_true]
    · exact absurd hwf (by simp)

theorem dateWF_length {d : List Char} (h : dateWF d = true) : d.length = 10 := by
  unfold dateWF at h
  split at h
  · simp
  · exact absurd h (by simp)

theorem dateWF_get {d : List Char} (h : dateWF d = true) (k : Nat) (hk : k < d.length) :
    (d[k]).isDigit = true ∨ d[k] = '-' := by
  unfold dateWF at h
  split at h
  next y1 y2 y3 y4 s1 m1 m2 s2 d1 d2 =>
    simp only [Bool.and_eq_true, beq_iff_eq] at h
    obtain ⟨⟨⟨⟨⟨⟨⟨⟨⟨h1, h2⟩, h3⟩, h4⟩, h5⟩, h6⟩, h7⟩, h8⟩, h9⟩, h10⟩ := h
    simp only [List.length_cons, List.length_nil] at hk
    interval_cases k <;> simp_all
  · exact absurd h (by simp)

/-! ### Character-class facts -/

theorem not_space_of_digit {c : Char} (h : c.isDigit = true) : isSpaceChar c = false := by
  by_contra hc
  simp only [Bool.not_eq_false] at hc
  unfold isSpaceChar at hc
  simp only [Bool.or_eq_true, beq_iff_eq] at hc
  rcases hc with ((((rfl | rfl) | rfl) | rfl) | rfl) | rfl <;> simp [Char.isDigit] at h

theorem bracket_not_space : isSpaceChar '[' = false := by decide

theorem bracket_not_digit : Char.isDigit '[' = false := by decide

/-! ### Append/decomposition behaviour of the matcher steps -/

theorem dropSpaces_append {r : List Char}
    (hr : ∀ c, r.head? = some c → isSpaceChar c = false) (x : List Char) :
    dropSpaces (x ++ r) = dropSpaces x ++ r := by
  induction x with
  | nil =>
    cases r with
    | nil => simp [dropSpaces]
    | cons c cs =>
      have := hr c (by simp)
      simp [dropSpaces, this]
  | cons c cs ih =>
    simp only [List.cons_append, dropSpaces]
    split <;> simp [ih]

theorem takeDigits_append {r : List Char}
    (hr : ∀ c, r.head? = some c → c.isDigit = false) (x : List Char) :
    takeDigits (x ++ r) = ((takeDigits x).1, (takeDigits x).2 ++ r) := by
  induction x with
  | nil =>
    cases r with
    | nil => simp [takeDigits]
    | cons c cs =>
      have := hr c (by simp)
      simp [takeDigits, this]
  | cons c cs ih =>
    simp only [List.cons_append, takeDigits]
    split <;> simp [ih]

theorem dropSpaces_decomp (x : List Char) :
    ∃ w, x = w ++ dropSpaces x ∧ ∀ c ∈ w, isSpaceChar c = true := by
  induction x with
  | nil => exact ⟨[], by simp [dropSpaces]⟩
  | cons c cs ih =>
    obtain ⟨w, hw, hsp⟩ := ih
    by_cases hc : isSpaceChar c = true
    · refine ⟨c :: w, ?_, ?_⟩
      · simp [dropSpaces, hc]; exact hw
      · intro a ha
        rcases List.mem_cons.mp ha with rfl | ha
        · exact hc
        · exact hsp a ha
    · refine ⟨[], ?_, by simp⟩
      simp only [Bool.not_eq_true] at hc
      simp [dropSpaces, hc]

theorem takeDigits_decomp (x : List Char) :
    x = (takeDigits x).1 ++ (takeDigits x).2 ∧
      ∀ c ∈ (takeDigits x).1, c.isDigit = true := by
  induction x with
  | nil => simp [takeDigits]
  | cons c cs ih =>
    obtain ⟨hw, hd⟩ := ih
    by_cases hc : c.isDigit = true
    · constructor
      · simp only [takeDigits, hc, if_true, List.cons_append]
        exact congrArg (c :: ·) hw
      · intro a ha
        simp only [takeDigits, hc, if_true] at ha
        rcases List.mem_cons.mp ha with rfl | ha
        · exact hc
        · exact hd a ha
    · simp only [Bool.not_eq_true] at hc
      simp [takeDigits, hc]

theorem takeDigits_rest_head {x : List Char} {c : Char} {y : List Char}
    (h : (takeDigits x).2 = c :: y) : c.isDigit = false := by
  induction x with
  | nil => simp [takeDigits] at h
  | cons a as ih =>
    simp only [takeDigits] at h
    split at h
    · exact ih h
    · simp only [List.cons.injEq] at h
      obtain ⟨rfl, -⟩ := h
      simp_all

theorem dropSpaces_rest_head {x : List Char} {c : Char} {y : List Char}
    (h : dropSpaces x = c :: y) : isSpaceChar c = false := by
  induction x with
  | nil => simp [dropSpaces] at h
  | cons a as ih =>
    simp only [dropSpaces] at h
    split at h
    · exact ih h
    · simp only [List.cons.injEq] at h
      obtain ⟨rfl, -⟩ := h
      simp_all

theorem dropSpaces_allspace_front {w : List Char}
    (hw : ∀ c ∈ w, isSpaceChar c = true) (x : List Char) :
    dropSpaces (w ++ x) = dropSpaces x := by
  induction w with
  | nil => simp
  | cons c cs ih =>
    have hc := hw c (by simp)
    simp only [List.cons_append, dropSpaces, hc, if_true]
    exact ih (fun a ha => hw a (by simp [ha]))

theorem dropSpaces_head_nonspace {c : Char} {x : List Char}
    (hc : isSpaceChar c = false) : dropSpaces (c :: x) = c :: x := by
  simp [dropSpaces, hc]

theorem takeDigits_digits_front {ds : List Char}
    (hd : ∀ c ∈ ds, c.isDigit = true) {r : List Char}
    (hr : ∀ c, r.head? = some c → c.isDigit = false) :
    takeDigits (ds ++ r) = (ds, r) := by
  induction ds with
  | nil =>
    cases r with
    | nil => simp [takeDigits]
    | cons c cs => simp [takeDigits, hr c (by simp)]
  | cons c cs ih =>
    have hc := hd c (by simp)
    simp only [List.cons_append, takeDigits, hc, if_true]
    simp [ih (fun a ha => hd a (by simp [ha]))]

theorem matchDate_extend {x d rest} (h : matchDate x = some (d, rest)) (ext : List Char) :
    matchDate (x ++ ext) = some (d, rest ++ ext) := by
  obtain ⟨hwf, rfl⟩ := matchDate_eq.mp h
  exact matchDate_eq.mpr ⟨hwf, by simp⟩

theorem matchDate_append_bracket {r : List Char} (hr : r.head? = some '[')
    (x : List Char) :
    matchDate (x ++ r) = (matchDate x).map (fun p => (p.1, p.2 ++ r)) := by
  cases hm : matchDate x with
  | some p =>
    obtain ⟨d, rest⟩ := p
    simpa using matchDate_extend hm r
  | none =>
    simp only [Option.map_none']
    cases hc : matchDate (x ++ r) with
    | none => rfl
    | some p =>
      obtain ⟨d, rest⟩ := p
      exfalso
      obtain ⟨hwf, hsplit⟩ := matchDate_eq.mp hc
      have hd10 : d.length = 10 := dateWF_length hwf
      by_cases hx : 10 ≤ x.length
      · -- the window lies inside x, so matchDate x would have succeeded
        have hxd : x = d ++ x.drop 10 := by
          have h1 : (x ++ r).take 10 = d := by
            rw [hsplit]; rw [List.take_append_of_le_length (by omega)]
            simp [List.take_of_length_le, hd10]
          have h2 : x.take 10 = d := by
            rw [← h1, List.take_append_of_le_length hx]
          conv_lhs => rw [← List.take_append_drop 10 x]
          rw [h2]
        have : matchDate x = some (d, x.drop 10) := matchDate_eq.mpr ⟨hwf, hxd⟩
        rw [hm] at this; exact absurd this (by simp)
      · -- the window straddles the boundary: position x.length of d is '['
        push_neg at hx
        have hxk : x.length < d.length := by omega
        have hlen : x.length < (x ++ r).length := by
          rw [hsplit, List.length_append]; omega
        have h1 : (x ++ r)[x.length] = '[' := by
          rw [List.getElem_append_right (le_refl x.length)]
          rcases r with - | ⟨c, cs⟩
          · simp at hr
          · simp only [List.head?_cons, Option.some.injEq] at hr
            simp [hr]
        have h2 := List.get_of_eq hsplit ⟨x.length, hlen⟩
        rw [List.get_eq_getElem, List.get_eq_getElem] at h2
        simp only [h1] at h2
        rw [List.getElem_append_left hxk] at h2
        rcases dateWF_get hwf x.length hxk with hdig | hdash
        · rw [← h2] at hdig; exact absurd hdig (by decide)
        · rw [← h2] at hdash; exact absurd hdash (by decide)

/-! ### Decimal rendering round-trip -/

theorem digitChar_isDigit (k : Nat) : (digitChar k).isDigit = true := by
  unfold digitChar
  split_ifs <;> decide

theorem digitChar_val {k : Nat} (hk : k < 10) : (digitChar k).toNat - 48 = k := by
  unfold digitChar
  split_ifs with h0 h1 h2 h3 h4 h5 h6 h7 h8 h9 <;> simp_all <;> omega

theorem natDigits_ne_nil (n : Nat) : natDigits n ≠ [] := by
  by_cases h : n < 10
  · rw [natDigits_lt10 h]; simp
  · rw [natDigits_ge10 h]; simp

theorem natDigits_all_digits (n : Nat) : ∀ c ∈ natDigits n, c.isDigit = true := by
  induction n using Nat.strong_induction_on with
  | _ n ih =>
    by_cases h : n < 10
    · rw [natDigits_lt10 h]
      intro c hc
      simp only [List.mem_singleton] at hc
      subst hc
      exact digitChar_isDigit n
    · rw [natDigits_ge10 h]
      intro c hc
      rcases List.mem_append.mp hc with hmem | hmem
      · exact ih (n / 10) (Nat.div_lt_self (by omega) (by omega)) c hmem
      · simp only [List.mem_singleton] at hmem
        subst hmem
        exact digitChar_isDigit (n % 10)

theorem digitsVal_append (a : List Char) (c : Char) :
    digitsVal (a ++ [c]) = 10 * digitsVal a + (c.toNat - 48) := by
  unfold digitsVal
  rw [List.foldl_append]
  rfl

theorem dropSpaces_extend {x : List Char} {c : Char} {y : List Char}
    (h : dropSpaces x = c :: y) (ext : List Char) :
    dropSpaces (x ++ ext) = c :: (y ++ ext) := by
  induction x with
  | nil => simp [dropSpaces] at h
  | cons a as ih =>
    simp only [dropSpaces] at h
    simp only [List.cons_append, dropSpaces]
    split at h
    next hsp => simp only [hsp, if_true]; exact ih h
    next hsp =>
      simp only [List.cons.injEq] at h
      obtain ⟨rfl, rfl⟩ := h
      simp_all

theorem takeDigits_extend {x : List Char} {ds : List Char} {c : Char} {y : List Char}
    (h : takeDigits x = (ds, c :: y)) (ext : List Char) :
    takeDigits (x ++ ext) = (ds, c :: (y ++ ext)) := by
  induction x generalizing ds with
  | nil => simp [takeDigits] at h
  | cons a as ih =>
    simp only [takeDigits] at h
    simp only [List.cons_append, takeDigits]
    split at h
    next hdig =>
      simp only [Prod.mk.injEq] at h
      obtain ⟨rfl, h2⟩ := h
      simp only [hdig, if_true]
      have := @ih (takeDigits as).1 (by rw [← h2])
      simp [this]
    next hdig =>
      simp only [Prod.mk.injEq, List.cons.injEq] at h
      obtain ⟨rfl, rfl, rfl⟩ := h
      simp_all

theorem digitsVal_natDigits (n : Nat) : digitsVal (natDigits n) = n := by
  induction n using Nat.strong_induction_on with
  | _ n ih =>
    by_cases h : n < 10
    · rw [natDigits_lt10 h]
      show digitsVal [digitChar n] = n
      unfold digitsVal
      simp [digitChar_val h]
    · rw [natDigits_ge10 h, digitsVal_append,
        ih (n / 10) (Nat.div_lt_self (by omega) (by omega)),
        digitChar_val (Nat.mod_lt _ (by omega))]
      omega

/-! ### The matcher under concatenation -/

theorem takeDigits_nil : takeDigits [] = ([], []) := rfl

theorem tryTriple_extend {l : List Char} {t : RawTriple} {rem : List Char}
    (h : tryTriple l = some (t, rem)) (ext : List Char) :
    tryTriple (l ++ ext) = some (t, rem ++ ext) := by
  unfold tryTriple at h
  split at h
  case h_2 => exact absurd h (by simp)
  case h_1 x l1 =>
  rw [List.cons_append]
  split at h
  case h_1 => exact absurd h (by simp)
  case h_2 _ d l2 hd =>
  obtain ⟨hwf, hdl⟩ := matchDate_eq.mp hd
  obtain ⟨d0, d', rfl⟩ : ∃ d0 d', d = d0 :: d' := by
    have h10 := dateWF_length hwf
    cases d with
    | nil => simp at h10
    | cons a b => exact ⟨a, b, rfl⟩
  have E0 : dropSpaces (l1 ++ ext) = (d0 :: d') ++ (l2 ++ ext) := by
    have := @dropSpaces_extend l1 d0 (d' ++ l2) (by simpa using hdl) ext
    simpa using this
  have E1 : matchDate (dropSpaces (l1 ++ ext)) = some (d0 :: d', l2 ++ ext) :=
    matchDate_eq.mpr ⟨hwf, E0⟩
  split at h
  case h_2 => exact absurd h (by simp)
  case h_1 _ l3 hl2 =>
  have E2 : dropSpaces (l2 ++ ext) = ',' :: (l3 ++ ext) := dropSpaces_extend hl2 ext
  split at h
  case isTrue => exact absurd h (by simp)
  case isFalse hne =>
  have hl3ne : dropSpaces l3 ≠ [] := by
    intro hnil
    rw [hnil] at hne
    simp [takeDigits] at hne
  obtain ⟨c3, y3, hc3⟩ : ∃ c3 y3, dropSpaces l3 = c3 :: y3 := by
    cases hx : dropSpaces l3 with
    | nil => exact absurd hx hl3ne
    | cons a b => exact ⟨a, b, rfl⟩
  have E3 : dropSpaces (l3 ++ ext) = dropSpaces l3 ++ ext := by
    rw [dropSpaces_extend hc3 ext, hc3]
    simp
  split at h
  case h_3 => exact absurd h (by simp)
  case h_1 _ rest hrest =>
    -- no-meal form: `...,digits]`
    have h2ne : (takeDigits (dropSpaces l3)).2 ≠ [] := by
      intro hnil
      rw [hnil] at hrest
      simp [dropSpaces] at hrest
    obtain ⟨c4, y4, hc4⟩ : ∃ c4 y4, (takeDigits (dropSpaces l3)).2 = c4 :: y4 := by
      cases hx : (takeDigits (dropSpaces l3)).2 with
      | nil => exact absurd hx h2ne
      | cons a b => exact ⟨a, b, rfl⟩
    have E4 : takeDigits (dropSpaces (l3 ++ ext)) =
        ((takeDigits (dropSpaces l3)).1, c4 :: (y4 ++ ext)) := by
      rw [E3]
      exact takeDigits_extend (by rw [← hc4]) ext
    have E5 : dropSpaces (c4 :: (y4 ++ ext)) = ']' :: (rest ++ ext) := by
      have hr : dropSpaces (c4 :: y4) = ']' :: rest := by rw [← hc4]; exact hrest
      have := dropSpaces_extend hr ext
      simpa using this
    simp only [Option.some.injEq, Prod.mk.injEq] at h
    obtain ⟨rfl, rfl⟩ := h.symm
    simp only [tryTriple, E1, E2, E4, E5]
    have hne' : ((takeDigits (dropSpaces l3)).1.isEmpty = true) = False := by
      simp [hne]
    simp [hne']
  case h_2 _ l5 hl5 =>
    -- meal form: `...,digits,m]`
    have h2ne : (takeDigits (dropSpaces l3)).2 ≠ [] := by
      intro hnil
      rw [hnil] at hl5
      simp [dropSpaces] at hl5
    obtain ⟨c4, y4, hc4⟩ : ∃ c4 y4, (takeDigits (dropSpaces l3)).2 = c4 :: y4 := by
      cases hx : (takeDigits (dropSpaces l3)).2 with
      | nil => exact absurd hx h2ne
      | cons a b => exact ⟨a, b, rfl⟩
    have E4 : takeDigits (dropSpaces (l3 ++ ext)) =
        ((takeDigits (dropSpaces l3)).1, c4 :: (y4 ++ ext)) := by
      rw [E3]
      exact takeDigits_extend (by rw [← hc4]) ext
    have E5 : dropSpaces (c4 :: (y4 ++ ext)) = ',' :: (l5 ++ ext) := by
      have hr : dropSpaces (c4 :: y4) = ',' :: l5 := by rw [← hc4]; exact hl5
      have := dropSpaces_extend hr ext
      simpa using this
    split at h
    case h_2 => exact absurd h (by simp)
    case h_1 _ m l6 hml =>
    have E6 : dropSpaces (l5 ++ ext) = m :: (l6 ++ ext) := dropSpaces_extend hml ext
    split at h
    case isFalse => exact absurd h (by simp)
    case isTrue hm =>
    split at h
    case h_2 => exact absurd h (by simp)
    case h_1 _ rest hrest =>
    have E7 : dropSpaces (l6 ++ ext) = ']' :: (rest ++ ext) := dropSpaces_extend hrest ext
    simp only [Option.some.injEq, Prod.mk.injEq] at h
    obtain ⟨rfl, rfl⟩ := h.symm
    simp only [tryTriple, E1, E2, E4, E5, E6, E7]
    have hne' : ((takeDigits (dropSpaces l3)).1.isEmpty = true) = False := by
      simp [hne]
    simp [hne', hm]

theorem specTriple_iff_tryTriple {cs : List Char} {t : RawTriple} :
    specTriple? cs = some t ↔ tryTriple cs = some (t, []) := by
  constructor
  · intro h
    unfold specTriple? at h
    split at h
    case h_2 => exact absurd h (by simp)
    case h_1 _ l1 =>
    split at h
    case h_1 => exact absurd h (by simp)
    case h_2 _ d l2 hd =>
    split at h
    case h_2 => exact absurd h (by simp)
    case h_1 _ l3 hl2 =>
    split at h
    case isTrue => exact absurd h (by simp)
    case isFalse hne =>
    split at h
    case h_3 => exact absurd h (by simp)
    case h_1 hrest =>
      simp only [Option.some.injEq] at h
      subst h
      simp [tryTriple, hd, hl2, hne, hrest]
    case h_2 _ l5 hl5 =>
      split at h
      case h_2 => exact absurd h (by simp)
      case h_1 _ m l6 hml =>
      split at h
      case isFalse => exact absurd h (by simp)
      case isTrue hm =>
      split at h
      case h_2 => exact absurd h (by simp)
      case h_1 hrest =>
      simp only [Option.some.injEq] at h
      subst h
      simp [tryTriple, hd, hl2, hne, hl5, hml, hm, hrest]
  · intro h
    unfold tryTriple at h
    split at h
    case h_2 => exact absurd h (by simp)
    case h_1 _ l1 =>
    split at h
    case h_1 => exact absurd h (by simp)
    case h_2 _ d l2 hd =>
    split at h
    case h_2 => exact absurd h (by simp)
    case h_1 _ l3 hl2 =>
    split at h
    case isTrue => exact absurd h (by simp)
    case isFalse hne =>
    split at h
    case h_3 => exact absurd h (by simp)
    case h_1 _ rest hrest =>
      simp only [Option.some.injEq, Prod.mk.injEq] at h
      obtain ⟨rfl, rfl⟩ := h.symm
      simp [specTriple?, hd, hl2, hne, hrest]
    case h_2 _ l5 hl5 =>
      split at h
      case h_2 => exact absurd h (by simp)
      case h_1 _ m l6 hml =>
      split at h
      case isFalse => exact absurd h (by simp)
      case isTrue hm =>
      split at h
      case h_2 => exact absurd h (by simp)
      case h_1 _ rest hrest =>
      simp only [Option.some.injEq, Prod.mk.injEq] at h
      obtain ⟨rfl, rfl⟩ := h.symm
      simp [specTriple?, hd, hl2, hne, hl5, hml, hm, hrest]

/-- Completeness: a grammar-exact prefix is matched by the scanner with the
untouched remainder returned. -/
theorem specTriple_front {pre : List Char} {t : RawTriple}
    (h : specTriple? pre = some t) (rest : List Char) :
    tryTriple (pre ++ rest) = some (t, rest) := by
  have h2 := specTriple_iff_tryTriple.mp h
  simpa using tryTriple_extend h2 rest

theorem not_digit_of_space {c : Char} (h : isSpaceChar c = true) : c.isDigit = false := by
  unfold isSpaceChar at h
  simp only [Bool.or_eq_true, beq_iff_eq] at h
  rcases h with ((((rfl | rfl) | rfl) | rfl) | rfl) | rfl <;> decide

theorem dateWF_head {d : List Char} (h : dateWF d = true) :
    ∃ d0 d', d = d0 :: d' ∧ d0.isDigit = true := by
  unfold dateWF at h
  split at h
  next y1 y2 y3 y4 s1 m1 m2 s2 d1 d2 =>
    exact ⟨y1, [y2, y3, y4, s1, m1, m2, s2, d1, d2], rfl, by simp_all⟩
  · exact absurd h (by simp)

theorem dateWF_not_mem_bracket {d : List Char} (h : dateWF d = true) : '[' ∉ d := by
  intro hmem
  have hlen := dateWF_length h
  obtain ⟨k, hk, hget⟩ := List.mem_iff_getElem.mp hmem
  rcases dateWF_get h k hk with hdig | hdash
  · rw [hget] at hdig; exact absurd hdig (by decide)
  · rw [hget] at hdash; exact absurd hdash (by decide)

theorem isEmpty_false_ne_nil {l : List Char} (h : ¬l.isEmpty = true) : l ≠ [] := by
  cases l <;> simp_all

/-- Soundness: a successful scanner match decomposes the input into a
grammar-exact consumed prefix (whose only `'['` is its first character) and
the returned remainder. -/
theorem tryTriple_sound {l : List Char} {t : RawTriple} {rest : List Char}
    (h : tryTriple l = some (t, rest)) :
    ∃ mid, l = '[' :: (mid ++ rest) ∧ specTriple? ('[' :: mid) = some t ∧ '[' ∉ mid := by
  unfold tryTriple at h
  split at h
  case h_2 => exact absurd h (by simp)
  case h_1 _ l1 =>
  split at h
  case h_1 => exact absurd h (by simp)
  case h_2 _ d l2 hd =>
  obtain ⟨hwf, hdl⟩ := matchDate_eq.mp hd
  obtain ⟨d0, d', rfl, hd0⟩ := dateWF_head hwf
  split at h
  case h_2 => exact absurd h (by simp)
  case h_1 _ l3 hl2 =>
  split at h
  case isTrue => exact absurd h (by simp)
  case isFalse hne =>
  obtain ⟨w1, hw1, sp1⟩ := dropSpaces_decomp l1
  obtain ⟨w2, hw2, sp2⟩ := dropSpaces_decomp l2
  obtain ⟨w3, hw3, sp3⟩ := dropSpaces_decomp l3
  obtain ⟨hsplit3, hdigs⟩ := takeDigits_decomp (dropSpaces l3)
  have hdsne : (takeDigits (dropSpaces l3)).1 ≠ [] := isEmpty_false_ne_nil hne
  obtain ⟨g0, g', hg, hg0⟩ : ∃ g0 g', (takeDigits (dropSpaces l3)).1 = g0 :: g' ∧
      g0.isDigit = true := by
    cases hx : (takeDigits (dropSpaces l3)).1 with
    | nil => exact absurd hx hdsne
    | cons a b =>
      exact ⟨a, b, rfl, hdigs a (by rw [hx]; exact List.mem_cons_self a b)⟩
  obtain ⟨w4, hw4, sp4⟩ := dropSpaces_decomp (takeDigits (dropSpaces l3)).2
  have hne' : ((takeDigits (dropSpaces l3)).1.isEmpty = true) = False := by
    simp [hne]
  split at h
  case h_3 => exact absurd h (by simp)
  case h_1 _ rest' hrest =>
    simp only [Option.some.injEq, Prod.mk.injEq] at h
    obtain ⟨rfl, rfl⟩ := h.symm
    refine ⟨w1 ++ (d0 :: (d' ++ (w2 ++ (',' :: (w3 ++ ((takeDigits (dropSpaces l3)).1 ++
      (w4 ++ [']']))))))), ?_, ?_, ?_⟩
    · -- reassemble the input
      rw [hw4, hrest] at hsplit3
      rw [hsplit3] at hw3
      rw [hw3] at hl2
      rw [hw2, hl2] at hdl
      rw [hdl] at hw1
      rw [hw1]
      simp
    · -- the consumed prefix matches the grammar exactly
      have E1 : dropSpaces (w1 ++ (d0 :: (d' ++ (w2 ++ (',' :: (w3 ++
          ((takeDigits (dropSpaces l3)).1 ++ (w4 ++ [']'])))))))) =
          d0 :: (d' ++ (w2 ++ (',' :: (w3 ++ ((takeDigits (dropSpaces l3)).1 ++
            (w4 ++ [']'])))))) := by
        rw [dropSpaces_allspace_front sp1]
        exact dropSpaces_head_nonspace (not_space_of_digit hd0)
      have E2 : matchDate (d0 :: (d' ++ (w2 ++ (',' :: (w3 ++
          ((takeDigits (dropSpaces l3)).1 ++ (w4 ++ [']']))))))) =
          some (d0 :: d', w2 ++ (',' :: (w3 ++ ((takeDigits (dropSpaces l3)).1 ++
            (w4 ++ [']']))))) :=
        matchDate_eq.mpr ⟨hwf, by simp⟩
      have E3 : dropSpaces (w2 ++ (',' :: (w3 ++ ((takeDigits (dropSpaces l3)).1 ++
          (w4 ++ [']']))))) = ',' :: (w3 ++ ((takeDigits (dropSpaces l3)).1 ++
            (w4 ++ [']']))) := by
        rw [dropSpaces_allspace_front sp2]
        exact dropSpaces_head_nonspace (by decide)
      have E4 : dropSpaces (w3 ++ ((takeDigits (dropSpaces l3)).1 ++ (w4 ++ [']']))) =
          (takeDigits (dropSpaces l3)).1 ++ (w4 ++ [']']) := by
        rw [dropSpaces_allspace_front sp3, hg]
        simp only [List.cons_append]
        exact dropSpaces_head_nonspace (not_space_of_digit hg0)
      have E5 : takeDigits ((takeDigits (dropSpaces l3)).1 ++ (w4 ++ [']'])) =
          ((takeDigits (dropSpaces l3)).1, w4 ++ [']']) := by
        refine takeDigits_digits_front hdigs ?_
        intro c hc
        cases w4 with
        | nil =>
          simp only [List.nil_append, List.head?_cons, Option.some.injEq] at hc
          subst hc; decide
        | cons a b =>
          simp only [List.cons_append, List.head?_cons, Option.some.injEq] at hc
          subst hc
          exact not_digit_of_space (sp4 a (by simp))
      have E6 : dropSpaces (w4 ++ [']']) = [']'] := by
        rw [dropSpaces_allspace_front sp4]
        decide
      simp only [specTriple?, E1, E2, E3, E4, E5, E6, hne', if_false]
    · -- no bracket occurs after position 0 of the consumed prefix
      intro hmem
      simp only [List.mem_append, List.mem_cons, List.mem_singleton] at hmem
      rcases hmem with hm1 | hm2 | hm3
      · exact absurd (sp1 '[' hm1) (by decide)
      · exact dateWF_not_mem_bracket hwf (List.mem_cons.mpr (Or.inl hm2))
      rcases hm3 with hm3 | hm4
      · exact dateWF_not_mem_bracket hwf (List.mem_cons.mpr (Or.inr hm3))
      rcases hm4 with hm4 | hm5
      · exact absurd (sp2 '[' hm4) (by decide)
      rcases hm5 with hm5 | hm6
      · exact absurd hm5 (by decide)
      rcases hm6 with hm6 | hm7
      · exact absurd (sp3 '[' hm6) (by decide)
      rcases hm7 with hm7 | hm8
      · exact absurd (hdigs '[' hm7) (by decide)
      rcases hm8 with hm8 | hm9
      · exact absurd (sp4 '[' hm8) (by decide)
      · exact absurd hm9 (by decide)
  case h_2 _ l5 hl5 =>
    split at h
    case h_2 => exact absurd h (by simp)
    case h_1 _ m l6 hml =>
    split at h
    case isFalse => exact absurd h (by simp)
    case isTrue hm =>
    split at h
    case h_2 => exact absurd h (by simp)
    case h_1 _ rest' hrest =>
    simp only [Option.some.injEq, Prod.mk.injEq] at h
    obtain ⟨rfl, rfl⟩ := h.symm
    obtain ⟨w5, hw5, sp5⟩ := dropSpaces_decomp l5
    obtain ⟨w6, hw6, sp6⟩ := dropSpaces_decomp l6
    have hmns : isSpaceChar m = false := dropSpaces_rest_head hml
    refine ⟨w1 ++ (d0 :: (d' ++ (w2 ++ (',' :: (w3 ++ ((takeDigits (dropSpaces l3)).1 ++
      (w4 ++ (',' :: (w5 ++ (m :: (w6 ++ [']']))))))))))), ?_, ?_, ?_⟩
    · rw [hw6, hrest] at hml
      rw [hml] at hw5
      rw [hw5] at hl5
      rw [hw4, hl5] at hsplit3
      rw [hsplit3] at hw3
      rw [hw3] at hl2
      rw [hw2, hl2] at hdl
      rw [hdl] at hw1
      rw [hw1]
      simp
    · have E1 : dropSpaces (w1 ++ (d0 :: (d' ++ (w2 ++ (',' :: (w3 ++
          ((takeDigits (dropSpaces l3)).1 ++ (w4 ++ (',' :: (w5 ++ (m ::
            (w6 ++ [']'])))))))))))) =
          d0 :: (d' ++ (w2 ++ (',' :: (w3 ++ ((takeDigits (dropSpaces l3)).1 ++
            (w4 ++ (',' :: (w5 ++ (m :: (w6 ++ [']'])))))))))) := by
        rw [dropSpaces_allspace_front sp1]
        exact dropSpaces_head_nonspace (not_space_of_digit hd0)
      have E2 : matchDate (d0 :: (d' ++ (w2 ++ (',' :: (w3 ++
          ((takeDigits (dropSpaces l3)).1 ++ (w4 ++ (',' :: (w5 ++ (m ::
            (w6 ++ [']']))))))))))) =
          some (d0 :: d', w2 ++ (',' :: (w3 ++ ((takeDigits (dropSpaces l3)).1 ++
            (w4 ++ (',' :: (w5 ++ (m :: (w6 ++ [']']))))))))) :=
        matchDate_eq.mpr ⟨hwf, by simp⟩
      have E3 : dropSpaces (w2 ++ (',' :: (w3 ++ ((takeDigits (dropSpaces l3)).1 ++
          (w4 ++ (',' :: (w5 ++ (m :: (w6 ++ [']']))))))))) =
          ',' :: (w3 ++ ((takeDigits (dropSpaces l3)).1 ++ (w4 ++ (',' ::
            (w5 ++ (m :: (w6 ++ [']']))))))) := by
        rw [dropSpaces_allspace_front sp2]
        exact dropSpaces_head_nonspace (by decide)
      have E4 : dropSpaces (w3 ++ ((takeDigits (dropSpaces l3)).1 ++ (w4 ++ (',' ::
          (w5 ++ (m :: (w6 ++ [']']))))))) =
          (takeDigits (dropSpaces l3)).1 ++ (w4 ++ (',' :: (w5 ++ (m ::
            (w6 ++ [']']))))) := by
        rw [dropSpaces_allspace_front sp3, hg]
        simp only [List.cons_append]
        exact dropSpaces_head_nonspace (not_space_of_digit hg0)
      have E5 : takeDigits ((takeDigits (dropSpaces l3)).1 ++ (w4 ++ (',' ::
          (w5 ++ (m :: (w6 ++ [']'])))))) =
          ((takeDigits (dropSpaces l3)).1, w4 ++ (',' :: (w5 ++ (m ::
            (w6 ++ [']']))))) := by
        refine takeDigits_digits_front hdigs ?_
        intro c hc
        cases w4 with
        | nil =>
          simp only [List.nil_append, List.head?_cons, Option.some.injEq] at hc
          subst hc; decide
        | cons a b =>
          simp only [List.cons_append, List.head?_cons, Option.some.injEq] at hc
          subst hc
          exact not_digit_of_space (sp4 a (by simp))
      have E6 : dropSpaces (w4 ++ (',' :: (w5 ++ (m :: (w6 ++ [']']))))) =
          ',' :: (w5 ++ (m :: (w6 ++ [']']))) := by
        rw [dropSpaces_allspace_front sp4]
        exact dropSpaces_head_nonspace (by decide)
      have E7 : dropSpaces (w5 ++ (m :: (w6 ++ [']']))) = m :: (w6 ++ [']']) := by
        rw [dropSpaces_allspace_front sp5]
        exact dropSpaces_head_nonspace hmns
      have E8 : dropSpaces (w6 ++ [']']) = [']'] := by
        rw [dropSpaces_allspace_front sp6]
        decide
      simp only [specTriple?, E1, E2, E3, E4, E5, E6, E7, E8, hne', if_false, hm,
        if_true]
    · intro hmem
      simp only [List.mem_append, List.mem_cons, List.mem_singleton] at hmem
      rcases hmem with hm1 | hm2 | hm3
      · exact absurd (sp1 '[' hm1) (by decide)
      · exact dateWF_not_mem_bracket hwf (List.mem_cons.mpr (Or.inl hm2))
      rcases hm3 with hm3 | hm4
      · exact dateWF_not_mem_bracket hwf (List.mem_cons.mpr (Or.inr hm3))
      rcases hm4 with hm4 | hm5
      · exact absurd (sp2 '[' hm4) (by decide)
      rcases hm5 with hm5 | hm6
      · exact absurd hm5 (by decide)
      rcases hm6 with hm6 | hm7
      · exact absurd (sp3 '[' hm6) (by decide)
      rcases hm7 with hm7 | hm8
      · exact absurd (hdigs '[' hm7) (by decide)
      rcases hm8 with hm8 | hm9
      · exact absurd (sp4 '[' hm8) (by decide)
      rcases hm9 with hm9 | hm10
      · exact absurd hm9 (by decide)
      rcases hm10 with hm10 | hm11
      · exact absurd (sp5 '[' hm10) (by decide)
      rcases hm11 with hm11 | hm12
      · simp only [Bool.or_eq_true, beq_iff_eq] at hm
        rcases hm with (rfl | rfl) | rfl <;> exact absurd hm11 (by decide)
      rcases hm12 with hm12 | hm13
      · exact absurd (sp6 '[' hm12) (by decide)
      · exact absurd hm13 (by decide)

/-- A failed match at a position cannot be rescued by appending text that
starts with `'['`: the matcher would have to consume that bracket from a
state in which `'['` is never accepted. -/
theorem tryTriple_none_append {a r : List Char} (hr : r.head? = some '[')
    (ha : a ≠ []) (h : tryTriple a = none) : tryTriple (a ++ r) = none := by
  cases hc : tryTriple (a ++ r) with
  | none => rfl
  | some p =>
    obtain ⟨t, rest⟩ := p
    exfalso
    obtain ⟨mid, hsplit, hspec, hnb⟩ := tryTriple_sound hc
    rw [show ('[' : Char) :: (mid ++ rest) = ('[' :: mid) ++ rest from rfl] at hsplit
    rcases List.append_eq_append_iff.mp hsplit with ⟨a', hpre, hrr⟩ | ⟨c', hpre, -⟩
    · cases a' with
      | nil =>
        simp only [List.append_nil] at hpre
        rw [← hpre] at h
        rw [specTriple_iff_tryTriple.mp hspec] at h
        exact absurd h (by simp)
      | cons x xs =>
        have hx : x = '[' := by
          rw [hrr] at hr
          simpa using hr
        cases a with
        | nil => exact ha rfl
        | cons a0 a'' =>
          have : mid = a'' ++ (x :: xs) := by
            simpa using congrArg List.tail hpre
          apply hnb
          rw [this, hx]
          simp
    · rw [hpre] at h
      rw [specTriple_front hspec c'] at h
      exact absurd h (by simp)

theorem scanTriples_append_aux :
    ∀ (n : Nat) (a : List Char), a.length ≤ n → ∀ {r : List Char},
      r.head? = some '[' → scanTriples (a ++ r) = scanTriples a ++ scanTriples r := by
  intro n
  induction n with
  | zero =>
    intro a hlen r hr
    have : a = [] := List.length_eq_zero.mp (Nat.le_zero.mp hlen)
    subst this
    simp [scanTriples, scanAux_nil]
  | succ k ih =>
    intro a hlen r hr
    cases a with
    | nil => simp [scanTriples, scanAux_nil]
    | cons c cs =>
      cases hm : tryTriple (c :: cs) with
      | some p =>
        obtain ⟨t, rest⟩ := p
        have hcomb : tryTriple ((c :: cs) ++ r) = some (t, rest ++ r) :=
          tryTriple_extend hm r
        rw [scanTriples_match hcomb, scanTriples_match hm]
        have hlt := tryTriple_length hm
        simp only [List.length_cons] at hlt hlen
        rw [ih rest (by omega) hr]
        simp
      | none =>
        have hcomb : tryTriple ((c :: cs) ++ r) = none :=
          tryTriple_none_append hr (by simp) hm
        rw [List.cons_append] at hcomb
        rw [List.cons_append, scanTriples_nomatch hcomb, scanTriples_nomatch hm]
        simp only [List.length_cons] at hlen
        exact ih cs (by omega) hr

/-- The scan distributes over concatenation when the appended part starts
with `'['`. -/
theorem scanTriples_append (a : List Char) {r : List Char}
    (hr : r.head? = some '[') :
    scanTriples (a ++ r) = scanTriples a ++ scanTriples r :=
  scanTriples_append_aux a.length a (le_refl _) hr

theorem tryTriple_wf {l : List Char} {t : RawTriple} {rest : List Char}
    (h : tryTriple l = some (t, rest)) : dateWF t.date = true ∧ mealOK t.meal := by
  unfold tryTriple at h
  split at h
  case h_2 => exact absurd h (by simp)
  case h_1 _ l1 =>
  split at h
  case h_1 => exact absurd h (by simp)
  case h_2 _ d l2 hd =>
  obtain ⟨hwf, -⟩ := matchDate_eq.mp hd
  split at h
  case h_2 => exact absurd h (by simp)
  case h_1 _ l3 hl2 =>
  split at h
  case isTrue => exact absurd h (by simp)
  case isFalse hne =>
  split at h
  case h_3 => exact absurd h (by simp)
  case h_1 _ rest' hrest =>
    simp only [Option.some.injEq, Prod.mk.injEq] at h
    obtain ⟨-, rfl⟩ := h.symm
    exact ⟨hwf, Or.inl rfl⟩
  case h_2 _ l5 hl5 =>
    split at h
    case h_2 => exact absurd h (by simp)
    case h_1 _ m l6 hml =>
    split at h
    case isFalse => exact absurd h (by simp)
    case isTrue hm =>
    split at h
    case h_2 => exact absurd h (by simp)
    case h_1 _ rest' hrest =>
    simp only [Option.some.injEq, Prod.mk.injEq] at h
    obtain ⟨-, rfl⟩ := h.symm
    refine ⟨hwf, ?_⟩
    simp only [Bool.or_eq_true, beq_iff_eq] at hm
    rcases hm with (rfl | rfl) | rfl
    · exact Or.inr (Or.inl rfl)
    · exact Or.inr (Or.inr (Or.inl rfl))
    · exact Or.inr (Or.inr (Or.inr rfl))

theorem scanTriples_wf_aux :
    ∀ (n : Nat) (l : List Char), l.length ≤ n →
      ∀ t ∈ scanTriples l, dateWF t.date = true ∧ mealOK t.meal := by
  intro n
  induction n with
  | zero =>
    intro l hlen t ht
    have : l = [] := List.length_eq_zero.mp (Nat.le_zero.mp hlen)
    subst this
    simp [scanTriples, scanAux_nil] at ht
  | succ k ih =>
    intro l hlen t ht
    cases l with
    | nil => simp [scanTriples, scanAux_nil] at ht
    | cons c cs =>
      cases hm : tryTriple (c :: cs) with
      | some p =>
        obtain ⟨t0, rest⟩ := p
        rw [scanTriples_match hm] at ht
        rcases List.mem_cons.mp ht with rfl | ht
        · exact tryTriple_wf hm
        · have hlt := tryTriple_length hm
          simp only [List.length_cons] at hlt hlen
          exact ih rest (by omega) t ht
      | none =>
        rw [scanTriples_nomatch hm] at ht
        simp only [List.length_cons] at hlen
        exact ih cs (by omega) t ht

theorem scanTriples_wf {l : List Char} {t : RawTriple} (ht : t ∈ scanTriples l) :
    dateWF t.date = true ∧ mealOK t.meal :=
  scanTriples_wf_aux l.length l (le_refl _) t ht

theorem natDigits_head_digit (n : Nat) :
    ∃ c cs, natDigits n = c :: cs ∧ c.isDigit = true := by
  cases hx : natDigits n with
  | nil => exact absurd hx (natDigits_ne_nil n)
  | cons c cs =>
    refine ⟨c, cs, rfl, natDigits_all_digits n c ?_⟩
    rw [hx]
    exact List.mem_cons_self c cs

theorem specTriple_render {d : List Char} {i m : Nat} (hwf : dateWF d = true)
    (hm : m = 1 ∨ m = 2 ∨ m = 3) :
    specTriple? (renderTripleL d i m) = some ⟨d, i, some m⟩ := by
  obtain ⟨d0, d', rfl, hd0⟩ := dateWF_head hwf
  obtain ⟨n0, n', hn, hn0⟩ := natDigits_head_digit i
  have hm10 : m < 10 := by rcases hm with rfl | rfl | rfl <;> omega
  have hmd : natDigits m = [digitChar m] := natDigits_lt10 hm10
  have E1 : dropSpaces ((d0 :: d') ++ (',' :: (natDigits i ++ (',' ::
      (natDigits m ++ [']']))))) = (d0 :: d') ++ (',' :: (natDigits i ++ (',' ::
      (natDigits m ++ [']'])))) := by
    simp only [List.cons_append]
    exact dropSpaces_head_nonspace (not_space_of_digit hd0)
  have E2 : matchDate ((d0 :: d') ++ (',' :: (natDigits i ++ (',' ::
      (natDigits m ++ [']']))))) = some (d0 :: d', ',' :: (natDigits i ++ (',' ::
      (natDigits m ++ [']'])))) :=
    matchDate_eq.mpr ⟨hwf, rfl⟩
  have E3 : dropSpaces (',' :: (natDigits i ++ (',' :: (natDigits m ++ [']'])))) =
      ',' :: (natDigits i ++ (',' :: (natDigits m ++ [']']))) :=
    dropSpaces_head_nonspace (by decide)
  have E4 : dropSpaces (natDigits i ++ (',' :: (natDigits m ++ [']']))) =
      natDigits i ++ (',' :: (natDigits m ++ [']'])) := by
    rw [hn]
    simp only [List.cons_append]
    exact dropSpaces_head_nonspace (not_space_of_digit hn0)
  have E5 : takeDigits (natDigits i ++ (',' :: (natDigits m ++ [']']))) =
      (natDigits i, ',' :: (natDigits m ++ [']'])) := by
    refine takeDigits_digits_front (natDigits_all_digits i) ?_
    intro c hc
    simp only [List.head?_cons, Option.some.injEq] at hc
    subst hc
    decide
  have E6 : dropSpaces (',' :: (natDigits m ++ [']'])) =
      ',' :: (natDigits m ++ [']']) :=
    dropSpaces_head_nonspace (by decide)
  have E7 : dropSpaces (natDigits m ++ [']']) = digitChar m :: [']'] := by
    rw [hmd]
    simp only [List.cons_append, List.nil_append]
    exact dropSpaces_head_nonspace (not_space_of_digit (digitChar_isDigit m))
  have E8 : (digitChar m == '1' || digitChar m == '2' || digitChar m == '3') = true := by
    rcases hm with rfl | rfl | rfl <;> decide
  have E9 : dropSpaces [']'] = [']'] := by decide
  have hiE : ¬(natDigits i).isEmpty = true := by
    have := natDigits_ne_nil i
    cases hx : natDigits i with
    | nil => exact absurd hx this
    | cons a b => simp [hx]
  have hiE' : ((natDigits i).isEmpty = true) = False := by simp [hiE]
  have hval : (digitChar m).toNat - 48 = m := digitChar_val hm10
  simp only [renderTripleL, specTriple?, E1, E2, E3, E4, E5, E6, E7, E8, E9, hiE',
    if_false, if_true, digitsVal_natDigits, hval]

theorem renderTripleL_head (d : List Char) (i m : Nat) :
    (renderTripleL d i m).head? = some '[' := rfl

/-- Scanning a rendered triple followed by anything yields that triple and
continues with the remainder. -/
theorem scanTriples_render_cons {d : List Char} {i m : Nat} (hwf : dateWF d = true)
    (hm : m = 1 ∨ m = 2 ∨ m = 3) (rest : List Char) :
    scanTriples (renderTripleL d i m ++ rest) =
      ⟨d, i, some m⟩ :: scanTriples rest := by
  have h1 := specTriple_front (@specTriple_render d i m hwf hm) rest
  exact scanTriples_match h1

theorem scanTriples_nil : scanTriples [] = [] := by
  simp [scanTriples, scanAux_nil]

theorem scanTriples_renderList (L : List (String × MealEntry))
    (hwf : ∀ q ∈ L, dateWF q.1.data = true ∧
      (q.2.meal = 1 ∨ q.2.meal = 2 ∨ q.2.meal = 3)) :
    scanTriples (L.flatMap (fun q => renderTripleL q.1.data q.2.itm_id q.2.meal)) =
      L.map (fun q => ⟨q.1.data, q.2.itm_id, some q.2.meal⟩) := by
  induction L with
  | nil => simp [scanTriples_nil]
  | cons q L' ih =>
    obtain ⟨h1, h2⟩ := hwf q (by simp)
    simp only [List.flatMap_cons, List.map_cons]
    rw [scanTriples_render_cons h1 h2]
    rw [ih (fun a ha => hwf a (by simp [ha]))]

theorem flattenGenMap_appendEntry (g : GenMap) (d : String) (e : MealEntry) :
    (flattenGenMap (appendEntry g d e)).Perm (flattenGenMap g ++ [(d, e)]) := by
  induction g with
  | nil => simp [appendEntry, flattenGenMap]
  | cons p g' ih =>
    obtain ⟨d', es⟩ := p
    by_cases hd : d' = d
    · subst hd
      simp only [appendEntry, if_true, flattenGenMap, List.flatMap_cons,
        List.map_append, List.map_cons, List.map_nil, List.append_assoc,
        List.singleton_append, List.nil_append]
      exact List.Perm.append_left _ ((List.perm_append_singleton _ _).symm)
    · simp only [appendEntry, hd, if_false, flattenGenMap, List.flatMap_cons]
      have := ih.append_left (es.map (fun e => (d', e)))
      refine List.Perm.trans (by exact this) ?_
      simp [flattenGenMap, List.append_assoc]

theorem flattenGenMap_foldl (pairs : List (String × MealEntry)) :
    ∀ g0 : GenMap,
      (flattenGenMap (pairs.foldl (fun out q => appendEntry out q.1 q.2) g0)).Perm
        (flattenGenMap g0 ++ pairs) := by
  induction pairs with
  | nil => intro g0; simp
  | cons q qs ih =>
    intro g0
    simp only [List.foldl_cons]
    refine List.Perm.trans (ih (appendEntry g0 q.1 q.2)) ?_
    refine List.Perm.trans ((flattenGenMap_appendEntry g0 q.1 q.2).append_right qs) ?_
    simp only [List.append_assoc, List.singleton_append]
    exact List.Perm.refl _

theorem parse_eq_fold (s : String) :
    parse_generated_menu (some s) =
      ((scanTriples s.data).map desugarTriple).foldl
        (fun out q => appendEntry out q.1 q.2) [] := by
  unfold parse_generated_menu
  rw [List.foldl_map]

theorem parse_flatten_perm (s : String) :
    (flattenGenMap (parse_generated_menu (some s))).Perm
      ((scanTriples s.data).map desugarTriple) := by
  rw [parse_eq_fold]
  have h := flattenGenMap_foldl ((scanTriples s.data).map desugarTriple) []
  simpa [flattenGenMap] using h

theorem parse_flatten_wf {s : String} {q : String × MealEntry}
    (hq : q ∈ flattenGenMap (parse_generated_menu (some s))) :
    dateWF q.1.data = true ∧ (q.2.meal = 1 ∨ q.2.meal = 2 ∨ q.2.meal = 3) := by
  have hmem := (parse_flatten_perm s).mem_iff.mp hq
  obtain ⟨t, ht, rfl⟩ := List.mem_map.mp hmem
  obtain ⟨hwf, hmeal⟩ := scanTriples_wf ht
  refine ⟨hwf, ?_⟩
  rcases hmeal with hm | hm | hm | hm <;> simp [desugarTriple, hm]

theorem specTriple_head {l : List Char} {t : RawTriple}
    (h : specTriple? l = some t) : ∃ l', l = '[' :: l' := by
  unfold specTriple? at h
  split at h
  case h_1 _ l1 => exact ⟨l1, rfl⟩
  case h_2 => exact absurd h (by simp)

theorem occPrefix_none_of_head {ds : List Char}
    (hd : ∀ c, ds.head? = some c → c ≠ '[') : occPrefix ds = none := by
  apply List.findSome?_eq_none_iff.mpr
  intro n _
  cases hs : specTriple? (ds.take n) with
  | none => rfl
  | some t =>
    exfalso
    obtain ⟨l', hl'⟩ := specTriple_head hs
    cases ds with
    | nil => simp at hl'
    | cons a as =>
      cases n with
      | zero => simp at hl'
      | succ k =>
        simp only [List.take_succ_cons, List.cons.injEq] at hl'
        exact hd a rfl hl'.1

theorem occPrefix_none_of_nomatch {cs : List Char} (h : tryTriple cs = none) :
    occPrefix cs = none := by
  apply List.findSome?_eq_none_iff.mpr
  intro n _
  cases hs : specTriple? (cs.take n) with
  | none => rfl
  | some t' =>
    exfalso
    have hx := specTriple_front hs (cs.drop n)
    rw [List.take_append_drop, h] at hx
    exact absurd hx (by simp)

theorem occPrefix_of_match {cs : List Char} {t : RawTriple} {rest : List Char}
    (h : tryTriple cs = some (t, rest)) : occPrefix cs = some t := by
  obtain ⟨mid, hsplit, hspec, -⟩ := tryTriple_sound h
  have hcs : cs = ('[' :: mid) ++ rest := by rw [hsplit]; rfl
  have hlen : cs.length + 1 = ('[' :: mid).length + (rest.length + 1) := by
    rw [hcs]; simp; omega
  unfold occPrefix
  rw [hlen, List.range_add, List.findSome?_append]
  have h1 : (List.range ('[' :: mid).length).findSome?
      (fun n => specTriple? (cs.take n)) = none := by
    apply List.findSome?_eq_none_iff.mpr
    intro n hn
    simp only [List.mem_range] at hn
    cases hs : specTriple? (cs.take n) with
    | none => rfl
    | some t' =>
      exfalso
      have hx := specTriple_front hs (cs.drop n)
      rw [List.take_append_drop, h] at hx
      simp only [Option.some.injEq, Prod.mk.injEq] at hx
      obtain ⟨-, hdrop⟩ := hx
      have hclen : cs.length = ('[' :: mid).length + rest.length := by
        rw [hcs]; simp; omega
      have hdlen : cs.length - n = rest.length := by
        rw [hdrop]; simp [List.length_drop]
      simp only [List.length_cons] at hn hclen
      omega
  rw [h1, Option.none_or]
  rw [List.range_succ_eq_map]
  simp only [List.map_cons, List.findSome?_cons, Nat.add_zero]
  have htake : cs.take ('[' :: mid).length = '[' :: mid := by
    rw [hcs]
    exact List.take_left _ _
  rw [htake, hspec]

theorem scan_eq_occ_aux :
    ∀ (n : Nat) (cs : List Char), cs.length ≤ n →
      scanTriples cs = specOccurrences cs := by
  intro n
  induction n with
  | zero =>
    intro cs hlen
    have : cs = [] := List.length_eq_zero.mp (Nat.le_zero.mp hlen)
    subst this
    simp [scanTriples_nil, specOccurrences]
  | succ k ih =>
    intro cs hlen
    cases cs with
    | nil => simp [scanTriples_nil, specOccurrences]
    | cons c cs' =>
      cases hm : tryTriple (c :: cs') with
      | some p =>
        obtain ⟨t, rest⟩ := p
        obtain ⟨mid, hsplit, hspec, hnb⟩ := tryTriple_sound hm
        have hcs : c :: cs' = ('[' :: mid) ++ rest := by rw [hsplit]; rfl
        have hlt := tryTriple_length hm
        simp only [List.length_cons] at hlt hlen
        rw [scanTriples_match hm, ih rest (by omega)]
        have hclen : (c :: cs').length = ('[' :: mid).length + rest.length := by
          rw [hcs]; simp; omega
        unfold specOccurrences
        rw [hclen, List.range_add, List.filterMap_append, List.filterMap_map]
        have hpart2 : (List.range rest.length).filterMap
            ((fun i => occPrefix ((c :: cs').drop i)) ∘ (('[' :: mid).length + ·)) =
            (List.range rest.length).filterMap (fun i => occPrefix (rest.drop i)) := by
          apply List.filterMap_congr
          intro j _
          simp only [Function.comp_apply]
          rw [hcs, List.drop_append]
        have hpart1 : (List.range ('[' :: mid).length).filterMap
            (fun i => occPrefix ((c :: cs').drop i)) = [t] := by
          simp only [List.length_cons]
          rw [List.range_succ_eq_map, List.filterMap_cons, List.filterMap_map]
          rw [show (c :: cs').drop 0 = c :: cs' from rfl]
          rw [occPrefix_of_match hm]
          have hmidnone : (List.range mid.length).filterMap
              ((fun i => occPrefix ((c :: cs').drop i)) ∘ Nat.succ) = [] := by
            apply List.filterMap_eq_nil.mpr
            intro j hj
            simp only [List.mem_range] at hj
            simp only [Function.comp_apply]
            have hdropj : (c :: cs').drop (j + 1) = mid.drop j ++ rest := by
              rw [hcs]
              show (('[' :: mid) ++ rest).drop (j + 1) = mid.drop j ++ rest
              rw [List.drop_append_of_le_length (by simp; omega)]
              simp
            rw [hdropj]
            apply occPrefix_none_of_head
            intro a ha hbr
            subst hbr
            cases hdj : mid.drop j with
            | nil =>
              have : mid.length - j = 0 := by rw [← List.length_drop, hdj]; rfl
              omega
            | cons x xs =>
              rw [hdj] at ha
              simp only [List.cons_append, List.head?_cons, Option.some.injEq] at ha
              subst ha
              exact hnb (List.mem_of_mem_drop
                (by rw [hdj]; exact List.mem_cons_self '[' xs))
          rw [hmidnone]
        rw [hpart1, hpart2]
        rfl
      | none =>
        rw [scanTriples_nomatch hm]
        simp only [List.length_cons] at hlen
        rw [ih cs' (by omega)]
        unfold specOccurrences
        simp only [List.length_cons]
        rw [List.range_succ_eq_map, List.filterMap_cons, List.filterMap_map]
        rw [show (c :: cs').drop 0 = c :: cs' from rfl]
        rw [occPrefix_none_of_nomatch hm]
        apply List.filterMap_congr
        intro j _
        simp

/-- The scanner finds exactly the grammar occurrences, in position order. -/
theorem scanTriples_eq_specOccurrences (cs : List Char) :
    scanTriples cs = specOccurrences cs :=
  scan_eq_occ_aux cs.length cs (le_refl _)

/-- Claim C4, as stated, is false: `"[2025-01-01, 5]"` (with a space after
the comma) produces a parse entry although no substring of it matches the
whitespace-free grammar the claim describes. -/
theorem parse_strict_grammar_counterexample :
    parse_generated_menu (some "[2025-01-01, 5]") = [("2025-01-01", [⟨5, 3⟩])] ∧
    ((List.range 16).all (fun i => (List.range 17).all
      (fun n => strictTriple? (("[2025-01-01, 5]".data.drop i).take n) == none))) =
      true := by
  decide

/-- C4 (amended: the grammar admits optional whitespace around components,
as the source regex does): `parse_generated_menu` produces, grouped under
their date keys in scan order, exactly the desugared triple of each grammar
occurrence (meal defaulting to 3 when omitted, built into `desugarTriple`);
non-matching stretches contribute nothing and never cause an error.  The
second conjunct: at most one grammar substring starts at any position, so
"one entry per occurrence" is well-posed. -/
theorem parse_grammar_occurrences (s : String) :
    parse_generated_menu (some s) =
      ((specOccurrences s.data).map desugarTriple).foldl
        (fun out q => appendEntry out q.1 q.2) [] ∧
    (∀ i n₁ n₂ t₁ t₂, n₁ ≤ (s.data.drop i).length → n₂ ≤ (s.data.drop i).length →
      specTriple? ((s.data.drop i).take n₁) = some t₁ →
      specTriple? ((s.data.drop i).take n₂) = some t₂ → n₁ = n₂ ∧ t₁ = t₂) := by
  constructor
  · rw [parse_eq_fold, scanTriples_eq_specOccurrences]
  · intro i n₁ n₂ t₁ t₂ h1 h2 hs1 hs2
    have e1 := specTriple_front hs1 ((s.data.drop i).drop n₁)
    rw [List.take_append_drop] at e1
    have e2 := specTriple_front hs2 ((s.data.drop i).drop n₂)
    rw [List.take_append_drop] at e2
    rw [e1] at e2
    simp only [Option.some.injEq, Prod.mk.injEq] at e2
    obtain ⟨ht, hdp⟩ := e2
    have hl : ((s.data.drop i).drop n₁).length = ((s.data.drop i).drop n₂).length := by
      rw [hdp]
    simp only [List.length_drop] at hl h1 h2
    exact ⟨by omega, ht⟩

/-- Witness for `parse_grammar_occurrences` at a concrete input. -/
theorem parse_grammar_occurrences_witness :
    (16 : Nat) = 16 ∧
      (⟨"2025-10-14".data, 5, some 2⟩ : RawTriple) = ⟨"2025-10-14".data, 5, some 2⟩ :=
  (parse_grammar_occurrences "[2025-10-14,5,2]").2 0 16 16
    ⟨"2025-10-14".data, 5, some 2⟩ ⟨"2025-10-14".data, 5, some 2⟩
    (by decide) (by decide) (by decide) (by decide)

/-- C3: round-trip of the plan encoding — serializing the mapping produced
by parsing any plan string yields a string whose multiset (hence set) of
desugared `(date, item_id, meal)` triples equals that of the original, for
any insertion order of the triples. -/
theorem serialize_parse_roundtrip (s : String) :
    ((scanTriples (serializeGenMap (parse_generated_menu (some s))).data).map
      desugarTriple).Perm ((scanTriples s.data).map desugarTriple) := by
  have hwf : ∀ q ∈ flattenGenMap (parse_generated_menu (some s)),
      dateWF q.1.data = true ∧ (q.2.meal = 1 ∨ q.2.meal = 2 ∨ q.2.meal = 3) :=
    fun q hq => parse_flatten_wf hq
  have hdata : (serializeGenMap (parse_generated_menu (some s))).data =
      (flattenGenMap (parse_generated_menu (some s))).flatMap
        (fun q => renderTripleL q.1.data q.2.itm_id q.2.meal) := rfl
  rw [hdata, scanTriples_renderList _ hwf, List.map_map]
  have hid : (desugarTriple ∘ fun q : String × MealEntry =>
      RawTriple.mk q.1.data q.2.itm_id (some q.2.meal)) = id := rfl
  rw [hid, List.map_id]
  exact parse_flatten_perm s

/-- C10: totality of `parse_generated_menu` — `None` and the empty string
yield the empty mapping, and so does any string with no grammar occurrence;
the function is total by construction (no exception path exists). -/
theorem parse_total_empty :
    parse_generated_menu none = [] ∧ parse_generated_menu (some "") = [] ∧
    ∀ s : String, (∀ i < s.data.length, occPrefix (s.data.drop i) = none) →
      parse_generated_menu (some s) = [] := by
  refine ⟨rfl, by decide, ?_⟩
  intro s hnone
  rw [parse_eq_fold, scanTriples_eq_specOccurrences]
  have hocc : specOccurrences s.data = [] := by
    apply List.filterMap_eq_nil.mpr
    intro i hi
    exact hnone i (List.mem_range.mp hi)
  rw [hocc]
  rfl

/-- Witness for `parse_total_empty` at a concrete triple-free input. -/
theorem parse_total_empty_witness : parse_generated_menu (some "hello") = [] :=
  parse_total_empty.2.2 "hello" (by decide)

theorem findSubIdx_of_front {pat l : List Char} (h : pat.isPrefixOf l = true) :
    findSubIdx pat l = some 0 := by
  cases l <;> simp [findSubIdx, h]

theorem findSubIdx_skip {pat : List Char} {p0 : Char}
    (hp : pat.head? = some p0) :
    ∀ {ds : List Char}, (∀ c ∈ ds, c ≠ p0) → ∀ r,
      findSubIdx pat (ds ++ r) = (findSubIdx pat r).map (· + ds.length) := by
  obtain ⟨qs, rfl⟩ : ∃ qs, pat = p0 :: qs := by
    cases pat with
    | nil => simp at hp
    | cons q qs =>
      simp only [List.head?_cons, Option.some.injEq] at hp
      exact ⟨qs, by rw [hp]⟩
  intro ds
  induction ds with
  | nil =>
    intro _ r
    simp
  | cons c cs ih =>
    intro hds r
    have hc : c ≠ p0 := hds c (by simp)
    have hnp : (p0 :: qs).isPrefixOf (c :: (cs ++ r)) = false := by
      have hred : (p0 :: qs).isPrefixOf (c :: (cs ++ r)) =
          (p0 == c && qs.isPrefixOf (cs ++ r)) := rfl
      rw [hred]
      have : (p0 == c) = false := by
        simp only [beq_eq_false_iff_ne, ne_eq]
        intro heq
        exact hc heq.symm
      simp [this]
    show findSubIdx (p0 :: qs) ((c :: cs) ++ r) = _
    rw [List.cons_append]
    simp only [findSubIdx, hnp, if_false, Bool.false_eq_true]
    rw [ih (fun a ha => hds a (by simp [ha])) r]
    cases findSubIdx (p0 :: qs) r with
    | none => simp
    | some k =>
      simp only [Option.map_some', Option.map_map]
      simp only [List.length_cons]
      congr 1

theorem isPrefixOf_self_append (l r : List Char) : l.isPrefixOf (l ++ r) = true := by
  induction l with
  | nil => simp
  | cons c cs ih =>
    show (c == c && cs.isPrefixOf (cs ++ r)) = true
    simp [ih]

theorem dropSpaces_id_of_nospace {l : List Char}
    (h : ∀ c ∈ l, isSpaceChar c = false) : dropSpaces l = l := by
  cases l with
  | nil => rfl
  | cons c cs => exact dropSpaces_head_nonspace (h c (by simp))

theorem pyStrip_id_of_nospace {l : List Char}
    (h : ∀ c ∈ l, isSpaceChar c = false) : pyStrip l = l := by
  unfold pyStrip
  rw [dropSpaces_id_of_nospace h]
  rw [dropSpaces_id_of_nospace (by intro c hc; exact h c (List.mem_reverse.mp hc))]
  exact List.reverse_reverse l

theorem parseIntPy_natDigits (n : Nat) : parseIntPy (natDigits n) = some (n : Int) := by
  obtain ⟨c, cs, hn, hc⟩ := natDigits_head_digit n
  have hne1 : c ≠ '-' := by
    intro h
    rw [h] at hc
    exact absurd hc (by decide)
  have hne2 : c ≠ '+' := by
    intro h
    rw [h] at hc
    exact absurd hc (by decide)
  rw [hn]
  have hall : (c :: cs).all Char.isDigit = true := by
    rw [← hn]
    simp only [List.all_eq_true]
    exact natDigits_all_digits n
  unfold parseIntPy
  split
  next heq =>
    exfalso
    simp only [List.cons.injEq] at heq
    exact hne1 heq.1
  next heq =>
    exfalso
    simp only [List.cons.injEq] at heq
    exact hne2 heq.1
  next =>
    simp only [List.isEmpty_cons, Bool.not_false, hall, Bool.and_self, if_true,
      Option.some.injEq]
    rw [← hn, digitsVal_natDigits]

/-- C7: the output interpreter — the concrete example parses to 42;
non-numeric payloads, a missing end marker, and marker-free text give the
sentinel −1; a missing start marker or a missing end marker after the start
marker always gives the sentinel; and any integer payload between the two
markers parses to exactly that integer. -/
theorem format_llm_output_spec :
    format_llm_output "<|start_of_role|>assistant<|end_of_role|>42<|end_of_text|>" = 42 ∧
    format_llm_output
      "<|start_of_role|>assistant<|end_of_role|>not_a_number<|end_of_text|>" =
      LLM_ATTRIBUTE_ERROR ∧
    format_llm_output "<|start_of_role|>assistant<|end_of_role|>42" =
      LLM_ATTRIBUTE_ERROR ∧
    (∀ raw : String, findSubIdx startMarker.data raw.data = none →
      format_llm_output raw = LLM_ATTRIBUTE_ERROR) ∧
    (∀ (raw : String) (i : Nat), findSubIdx startMarker.data raw.data = some i →
      findSubIdx endMarker.data (raw.data.drop (i + startMarker.data.length)) = none →
      format_llm_output raw = LLM_ATTRIBUTE_ERROR) ∧
    (∀ n : Nat,
      format_llm_output (startMarker ++ String.mk (natDigits n) ++ endMarker) =
        (n : Int)) := by
  refine ⟨by decide, by decide, by decide, ?_, ?_, ?_⟩
  · intro raw h
    simp only [format_llm_output, h]
  · intro raw i h1 h2
    simp only [format_llm_output, h1, h2]
  · intro n
    have hdata : (startMarker ++ String.mk (natDigits n) ++ endMarker).data =
        startMarker.data ++ (natDigits n ++ endMarker.data) := by
      rw [String.data_append, String.data_append]
      simp [List.append_assoc]
    have hfs : findSubIdx startMarker.data
        (startMarker.data ++ (natDigits n ++ endMarker.data)) = some 0 :=
      findSubIdx_of_front (isPrefixOf_self_append _ _)
    have hdrop : (startMarker.data ++ (natDigits n ++ endMarker.data)).drop
        (0 + startMarker.data.length) = natDigits n ++ endMarker.data := by
      rw [Nat.zero_add]
      exact List.drop_left _ _
    have hfe : findSubIdx endMarker.data (natDigits n ++ endMarker.data) =
        some (natDigits n).length := by
      rw [@findSubIdx_skip endMarker.data '<' (by rfl) (natDigits n) ?_ endMarker.data]
      · rw [findSubIdx_of_front ?_]
        · simp
        · have := isPrefixOf_self_append endMarker.data []
          simpa using this
      · intro c hc
        intro hceq
        subst hceq
        exact absurd (natDigits_all_digits n '<' hc) (by decide)
    have htake : (natDigits n ++ endMarker.data).take (natDigits n).length =
        natDigits n := List.take_left _ _
    have hstrip : pyStrip (natDigits n) = natDigits n := by
      apply pyStrip_id_of_nospace
      intro c hc
      exact not_space_of_digit (natDigits_all_digits n c hc)
    simp only [format_llm_output, hdata, hfs, hdrop, hfe, htake, hstrip,
      parseIntPy_natDigits]

/-- Witness for `format_llm_output_spec` at concrete inputs. -/
theorem format_llm_output_spec_witness :
    format_llm_output "no markers here" = LLM_ATTRIBUTE_ERROR ∧
    format_llm_output (startMarker ++ String.mk (natDigits 7) ++ endMarker) = 7 :=
  ⟨format_llm_output_spec.2.2.2.1 "no markers here" (by decide),
   format_llm_output_spec.2.2.2.2.2 7⟩

theorem openAt_iff_aux :
    ∀ (n : Nat) (ts : List Nat), ts.length ≤ n → ∀ t : Nat,
      (openAt ts t = true ↔
        ∃ k, 2 * k + 1 < ts.length ∧ ts.getD (2 * k) 0 ≤ t ∧ t ≤ ts.getD (2 * k + 1) 0) := by
  intro n
  induction n with
  | zero =>
    intro ts hlen t
    have : ts = [] := List.length_eq_zero.mp (Nat.le_zero.mp hlen)
    subst this
    simp [openAt]
  | succ m ih =>
    intro ts hlen t
    match ts with
    | [] => simp [openAt]
    | [o] =>
      simp only [openAt, List.length_singleton]
      constructor
      · intro h; exact absurd h (by simp)
      · rintro ⟨k, hk, -⟩; omega
    | o :: c :: rest =>
      simp only [openAt, Bool.or_eq_true, Bool.and_eq_true, decide_eq_true_eq]
      simp only [List.length_cons] at hlen
      rw [ih rest (by omega) t]
      constructor
      · rintro (⟨h1, h2⟩ | ⟨k, hk, h1, h2⟩)
        · exact ⟨0, by simp, by simpa using h1, by simpa using h2⟩
        · refine ⟨k + 1, ?_, ?_, ?_⟩
          · simp only [List.length_cons]; omega
          · have : (o :: c :: rest).getD (2 * (k + 1)) 0 = rest.getD (2 * k) 0 := by
              rw [show 2 * (k + 1) = 2 * k + 1 + 1 by omega]
              simp [List.getD_cons_succ]
            rw [this]; exact h1
          · have : (o :: c :: rest).getD (2 * (k + 1) + 1) 0 = rest.getD (2 * k + 1) 0 := by
              rw [show 2 * (k + 1) + 1 = 2 * k + 1 + 1 + 1 by omega]
              simp [List.getD_cons_succ]
            rw [this]; exact h2
      · rintro ⟨k, hk, h1, h2⟩
        cases k with
        | zero =>
          left
          simp only [Nat.mul_zero, List.getD_cons_zero, Nat.zero_add,
            List.getD_cons_succ] at h1 h2
          exact ⟨h1, by simpa using h2⟩
        | succ k' =>
          right
          refine ⟨k', ?_, ?_, ?_⟩
          · simp only [List.length_cons] at hk; omega
          · have : (o :: c :: rest).getD (2 * (k' + 1)) 0 = rest.getD (2 * k') 0 := by
              rw [show 2 * (k' + 1) = 2 * k' + 1 + 1 by omega]
              simp [List.getD_cons_succ]
            rw [← this]; exact h1
          · have : (o :: c :: rest).getD (2 * (k' + 1) + 1) 0 = rest.getD (2 * k' + 1) 0 := by
              rw [show 2 * (k' + 1) + 1 = 2 * k' + 1 + 1 + 1 by omega]
              simp [List.getD_cons_succ]
            rw [← this]; exact h2

theorem openAt_iff (ts : List Nat) (t : Nat) :
    openAt ts t = true ↔
      ∃ k, 2 * k + 1 < ts.length ∧ ts.getD (2 * k) 0 ≤ t ∧ t ≤ ts.getD (2 * k + 1) 0 :=
  openAt_iff_aux ts.length ts (le_refl _) t

/-- C8: open-hours filter semantics — a restaurant is kept iff it is in the
input and its weekday entry exists, has an even-length time list, and the
order time falls inclusively inside some (open, close) pair; an absent
weekday or odd-length list excludes the restaurant rather than erroring
(the filter is total by construction). -/
theorem filter_closed_restaurants_spec (rs : List Restaurant) (weekday : String)
    (order_time : Nat) (r : Restaurant) :
    r ∈ filter_closed_restaurants rs weekday order_time ↔
      r ∈ rs ∧ ∃ ts, List.lookup weekday r.hours = some ts ∧ ts.length % 2 = 0 ∧
        ∃ k, 2 * k + 1 < ts.length ∧
          ts.getD (2 * k) 0 ≤ order_time ∧ order_time ≤ ts.getD (2 * k + 1) 0 := by
  unfold filter_closed_restaurants
  rw [List.mem_filter]
  constructor
  · rintro ⟨hmem, hopen⟩
    refine ⟨hmem, ?_⟩
    unfold isOpenOn at hopen
    split at hopen
    · exact absurd hopen (by simp)
    next ts hts =>
      simp only [Bool.and_eq_true, beq_iff_eq] at hopen
      exact ⟨ts, hts, hopen.1, (openAt_iff ts order_time).mp hopen.2⟩
  · rintro ⟨hmem, ts, hts, heven, hk⟩
    refine ⟨hmem, ?_⟩
    unfold isOpenOn
    rw [hts]
    simp only [Bool.and_eq_true, beq_iff_eq]
    exact ⟨heven, (openAt_iff ts order_time).mpr hk⟩

/-- C5: the oracle never raises — `generate` is a total `String`-valued
function, and on every failure condition (fallback mode, model never
loaded, or the model-backed path raising) its result is exactly the
deterministic fallback output. -/
theorem generate_never_raises (st : LLMState) (context prompt : String) :
    (st.use_fallback = true ∨ st.model_loaded = false ∨
        st.modelGen context prompt = none →
      generate st context prompt = generate_fallback context prompt) ∧
    (generate st context prompt = generate_fallback context prompt ∨
      st.modelGen context prompt = some (generate st context prompt)) := by
  constructor
  · intro h
    unfold generate
    rcases h with h | h | h
    · simp [h]
    · simp [h]
    · by_cases hf : (st.use_fallback || !st.model_loaded) = true
      · simp [hf]
      · simp only [hf, Bool.false_eq_true, if_false, h]
  · unfold generate
    by_cases hf : (st.use_fallback || !st.model_loaded) = true
    · left; simp [hf]
    · cases hm : st.modelGen context prompt with
      | none => left; simp [hf, hm]
      | some out => right; simp [hf, hm]

/-- Witness for `generate_never_raises` at a concrete failing state. -/
theorem generate_never_raises_witness :
    generate ⟨true, false, fun _ _ => none⟩ "hdr\n7,x" "p" =
      generate_fallback "hdr\n7,x" "p" :=
  (generate_never_raises ⟨true, false, fun _ _ => none⟩ "hdr\n7,x" "p").1
    (Or.inl rfl)

theorem splitNL_ne_nil (l : List Char) : splitNL l ≠ [] := by
  cases l with
  | nil => simp [splitNL]
  | cons c rest =>
    simp only [splitNL]
    split <;> split <;> simp

theorem splitNL_append_no_nl {x : List Char} (hx : ∀ c ∈ x, c ≠ '\n') :
    ∀ {l y : List Char} {ys : List (List Char)}, splitNL l = y :: ys →
      splitNL (x ++ l) = (x ++ y) :: ys := by
  induction x with
  | nil => intro l y ys h; simpa using h
  | cons c cs ih =>
    intro l y ys h
    have hc : c ≠ '\n' := hx c (by simp)
    rw [List.cons_append]
    show splitNL (c :: (cs ++ l)) = _
    simp only [splitNL]
    rw [ih (fun a ha => hx a (by simp [ha])) h]
    simp [hc]

theorem splitNL_cons_nl (l : List Char) : splitNL ('\n' :: l) = [] :: splitNL l := by
  show splitNL ('\n' :: l) = _
  simp only [splitNL]
  cases hs : splitNL l with
  | nil => exact absurd hs (splitNL_ne_nil l)
  | cons y ys => simp

theorem splitNL_joinNL :
    ∀ (ls : List (List Char)), ls ≠ [] →
      (∀ ln ∈ ls, ∀ c ∈ ln, c ≠ '\n') → splitNL (joinNL ls) = ls := by
  intro ls
  induction ls with
  | nil => intro h; exact absurd rfl h
  | cons x xs ih =>
    intro _ hnl
    cases xs with
    | nil =>
      show splitNL (joinNL [x]) = [x]
      have : splitNL (x ++ []) = (x ++ []) :: [] :=
        splitNL_append_no_nl (hnl x (by simp)) (by simp [splitNL])
      simpa [joinNL] using this
    | cons x2 xs' =>
      show splitNL (x ++ '\n' :: joinNL (x2 :: xs')) = x :: x2 :: xs'
      have hrest : splitNL (joinNL (x2 :: xs')) = x2 :: xs' :=
        ih (by simp) (fun ln hln c hc => hnl ln (by simp [hln]) c hc)
      have hnlsplit : splitNL ('\n' :: joinNL (x2 :: xs')) = [] :: x2 :: xs' := by
        rw [splitNL_cons_nl, hrest]
      have := splitNL_append_no_nl (hnl x (by simp)) hnlsplit
      simpa using this

theorem parseIntPy_intChars (i : Int) : parseIntPy (intChars i) = some i := by
  unfold intChars
  split
  next hneg =>
    have hall : (natDigits i.natAbs).all Char.isDigit = true := by
      simp only [List.all_eq_true]
      exact natDigits_all_digits _
    have hne : ¬(natDigits i.natAbs).isEmpty = true := by
      cases hx : natDigits i.natAbs with
      | nil => exact absurd hx (natDigits_ne_nil _)
      | cons a b => simp
    show parseIntPy ('-' :: natDigits i.natAbs) = some i
    unfold parseIntPy
    simp only [hall, hne, Bool.not_false, Bool.and_self, if_true, Option.some.injEq]
    rw [digitsVal_natDigits]
    omega
  next hpos =>
    rw [parseIntPy_natDigits]
    congr 1
    exact Int.toNat_of_nonneg (by omega)

theorem intChars_ne_lt {i : Int} {c : Char} (hc : c ∈ intChars i) : c ≠ '<' := by
  unfold intChars at hc
  split at hc
  · rcases List.mem_cons.mp hc with rfl | hc
    · decide
    · intro h
      rw [h] at hc
      exact absurd (natDigits_all_digits _ '<' hc) (by decide)
  · intro h
    rw [h] at hc
    exact absurd (natDigits_all_digits _ '<' hc) (by decide)

theorem intChars_nospace {i : Int} {c : Char} (hc : c ∈ intChars i) :
    isSpaceChar c = false := by
  unfold intChars at hc
  split at hc
  · rcases List.mem_cons.mp hc with rfl | hc
    · decide
    · exact not_space_of_digit (natDigits_all_digits _ c hc)
  · exact not_space_of_digit (natDigits_all_digits _ c hc)

theorem format_llm_output_wrap (pl : List Char) (h : ∀ c ∈ pl, c ≠ '<') :
    format_llm_output (startMarker ++ String.mk pl ++ endMarker) =
      (match parseIntPy (pyStrip pl) with
       | none => LLM_ATTRIBUTE_ERROR
       | some n => n) := by
  have hdata : (startMarker ++ String.mk pl ++ endMarker).data =
      startMarker.data ++ (pl ++ endMarker.data) := by
    rw [String.data_append, String.data_append]
    simp [List.append_assoc]
  have hfs : findSubIdx startMarker.data
      (startMarker.data ++ (pl ++ endMarker.data)) = some 0 :=
    findSubIdx_of_front (isPrefixOf_self_append _ _)
  have hdrop : (startMarker.data ++ (pl ++ endMarker.data)).drop
      (0 + startMarker.data.length) = pl ++ endMarker.data := by
    rw [Nat.zero_add]
    exact List.drop_left _ _
  have hfe : findSubIdx endMarker.data (pl ++ endMarker.data) = some pl.length := by
    rw [@findSubIdx_skip endMarker.data '<' (by rfl) pl h endMarker.data]
    rw [findSubIdx_of_front ?_]
    · simp
    · have := isPrefixOf_self_append endMarker.data []
      simpa using this
  have htake : (pl ++ endMarker.data).take pl.length = pl := List.take_left _ _
  simp only [format_llm_output, hdata, hfs, hdrop, hfe, htake]

/-- C6: the deterministic fallback — it ignores the prompt entirely; on a
header-first comma-separated table it returns the first integer parsed from
the first column of the data lines, wrapped in the same boundary-marker
format as the model-backed path (so `format_llm_output` recovers exactly
the chosen ID from any wrapped ID); with no data lines (or none parseable)
it returns the marker-wrapped default ID 1. -/
theorem generate_fallback_spec :
    (∀ c p p' : String, generate_fallback c p = generate_fallback c p') ∧
    generate_fallback "" "x" = markerWrap 1 ∧
    (∀ (hdr : List Char) (rows : List (List Char)) (p : String), rows ≠ [] →
      (∀ ln ∈ hdr :: rows, ∀ c ∈ ln, c ≠ '\n') →
      pyStrip (joinNL (hdr :: rows)) = joinNL (hdr :: rows) →
      generate_fallback (String.mk (joinNL (hdr :: rows))) p =
        (match rows.filterMap (fun line => parseIntPy (pyStrip (firstField line))) with
         | [] => markerWrap 1
         | i :: _ => markerWrap i)) ∧
    (∀ i : Int, format_llm_output (markerWrap i) = i) := by
  refine ⟨fun c p p' => rfl, by decide, ?_, ?_⟩
  · intro hdr rows p hrows hnl hstrip
    unfold generate_fallback
    have hd : (String.mk (joinNL (hdr :: rows))).data = joinNL (hdr :: rows) := rfl
    rw [hd, hstrip, splitNL_joinNL (hdr :: rows) (by simp) hnl]
    cases rows with
    | nil => exact absurd rfl hrows
    | cons r1 rs => rfl
  · intro i
    unfold markerWrap
    rw [format_llm_output_wrap (intChars i) (fun c hc => intChars_ne_lt hc)]
    rw [pyStrip_id_of_nospace (fun c hc => intChars_nospace hc)]
    rw [parseIntPy_intChars]

/-- Witness for `generate_fallback_spec` on a concrete two-row table. -/
theorem generate_fallback_spec_witness :
    generate_fallback (String.mk (joinNL ["id,name".data, "23,burger".data,
      "45,salad".data])) "prefs" =
      (match (["23,burger".data, "45,salad".data].filterMap
          (fun line => parseIntPy (pyStrip (firstField line)))) with
       | [] => markerWrap 1
       | i :: _ => markerWrap i) :=
  generate_fallback_spec.2.2.1 "id,name".data ["23,burger".data, "45,salad".data]
    "prefs" (by simp) (by decide) (by decide)

/-! ### Basic facts about the Driver's helpers -/

theorem get_meal_mem {mn : Nat} {x : String × Nat}
    (h : get_meal_and_order_time mn = some x) : mn = 1 ∨ mn = 2 ∨ mn = 3 := by
  unfold get_meal_and_order_time at h
  split_ifs at h with h1 h2 h3
  · exact Or.inl (by simpa using h1)
  · exact Or.inr (Or.inl (by simpa using h2))
  · exact Or.inr (Or.inr (by simpa using h3))

theorem parseDate_dateWF {date : String} {v : Nat × Nat × Nat}
    (h : parseDate date = some v) : dateWF date.data = true := by
  unfold parseDate at h
  split at h
  case h_2 => exact absurd h (by simp)
  case h_1 y1 y2 y3 y4 c1 m1 m2 c2 d1 d2 heq =>
    rw [heq]
    split at h
    case isFalse => exact absurd h (by simp)
    case isTrue hc =>
      simp only [Bool.and_eq_true, beq_iff_eq] at hc
      simp only [dateWF, Bool.and_eq_true, beq_iff_eq]
      tauto

theorem weekday_dateWF {date : String} {v : String × String}
    (h : get_weekday_and_increment date = some v) : dateWF date.data = true := by
  unfold get_weekday_and_increment at h
  cases hp : parseDate date with
  | none => rw [hp] at h; exact absurd h (by simp)
  | some w => exact parseDate_dateWF hp

/-- The Driver's duplicate check agrees with slot membership in the scanned
plan. -/
theorem slotTaken_iff (s d : String) (m : Nat) :
    slotTaken (parse_generated_menu (some s)) d m = true ↔ (d, m) ∈ slotsOf s := by
  have hflat : ∀ q : String × MealEntry,
      q ∈ flattenGenMap (parse_generated_menu (some s)) ↔
        q ∈ (scanTriples s.data).map desugarTriple :=
    fun q => (parse_flatten_perm s).mem_iff
  constructor
  · intro h
    simp only [slotTaken, List.any_eq_true, Bool.and_eq_true, beq_iff_eq] at h
    obtain ⟨p, hp, hpd, e, he, hem⟩ := h
    have hq : (p.1, e) ∈ flattenGenMap (parse_generated_menu (some s)) := by
      simp only [flattenGenMap, List.mem_flatMap, List.mem_map]
      exact ⟨p, hp, e, he, rfl⟩
    rw [hflat] at hq
    obtain ⟨t, ht, heq⟩ := List.mem_map.mp hq
    simp only [desugarTriple, Prod.mk.injEq] at heq
    obtain ⟨h1, h2⟩ := heq
    simp only [slotsOf, List.mem_map]
    refine ⟨t, ht, ?_⟩
    have h2m : t.meal.getD 3 = e.meal := congrArg MealEntry.meal h2
    simp only [slotOfRaw, Prod.mk.injEq]
    exact ⟨h1.trans hpd, h2m.trans hem⟩
  · intro h
    simp only [slotsOf, List.mem_map] at h
    obtain ⟨t, ht, hslot⟩ := h
    simp only [slotOfRaw, Prod.mk.injEq] at hslot
    obtain ⟨hd, hm⟩ := hslot
    have hq : desugarTriple t ∈ (scanTriples s.data).map desugarTriple :=
      List.mem_map.mpr ⟨t, ht, rfl⟩
    rw [← hflat] at hq
    simp only [flattenGenMap, List.mem_flatMap, List.mem_map] at hq
    obtain ⟨p, hp, e, he, hpe⟩ := hq
    simp only [slotTaken, List.any_eq_true, Bool.and_eq_true, beq_iff_eq]
    refine ⟨p, hp, ?_, e, he, ?_⟩
    · have : p.1 = String.mk t.date := congrArg Prod.fst hpe
      exact this.trans hd
    · have he2 : e = (⟨t.itm, t.meal.getD 3⟩ : MealEntry) := congrArg Prod.snd hpe
      rw [he2]
      exact hm

/-- Appending one rendered entry extends the scan by exactly that triple. -/
theorem scanTriples_snoc_render (P date : String) (itm mn : Nat)
    (hwf : dateWF date.data = true) (hm : mn = 1 ∨ mn = 2 ∨ mn = 3) :
    scanTriples (P ++ renderEntry date itm mn).data =
      scanTriples P.data ++ [⟨date.data, itm, some mn⟩] := by
  have hd : (renderEntry date itm mn).data = renderTripleL date.data itm mn := rfl
  rw [String.data_append, hd,
    scanTriples_append P.data (renderTripleL_head date.data itm mn)]
  congr 1
  have := @scanTriples_render_cons date.data itm mn hwf hm []
  simpa [scanTriples_nil] using this

/-- Appending one rendered entry extends the slot list by exactly its slot. -/
theorem slotsOf_snoc (P date : String) (itm mn : Nat)
    (hwf : dateWF date.data = true) (hm : mn = 1 ∨ mn = 2 ∨ mn = 3) :
    slotsOf (P ++ renderEntry date itm mn) = slotsOf P ++ [(date, mn)] := by
  simp only [slotsOf, scanTriples_snoc_render P date itm mn hwf hm,
    List.map_append, List.map_cons, List.map_nil]
  rfl

/-! ### C1: idempotence over a covered range -/

theorem processMeals_covered (env : DriverEnv)
    (preferences allergens date weekday P : String) (k : Nat) :
    ∀ meals : List Nat, (∀ m ∈ meals, (date, m) ∈ slotsOf P) →
      processMeals env preferences allergens date weekday (P, k) meals =
        some (P, k) := by
  intro meals
  induction meals with
  | nil => intro _; rfl
  | cons mn rest ih =>
    intro hcov
    have ht : slotTaken (parse_generated_menu (some P)) date mn = true :=
      (slotTaken_iff P date mn).mpr (hcov mn (by simp))
    simp only [processMeals, ht, if_true]
    exact ih (fun m hm => hcov m (List.mem_cons_of_mem mn hm))

theorem updateDays_covered (env : DriverEnv) (preferences allergens : String)
    (meals : List Nat) (P : String) (k : Nat) :
    ∀ (days : Nat) (start : String) (ds : List String),
      enumDates start days = some ds →
      (∀ d ∈ ds, ∀ m ∈ meals, (d, m) ∈ slotsOf P) →
      updateDays env preferences allergens meals (P, k) start days =
        some (P, k) := by
  intro days
  induction days with
  | zero => intro start ds _ _; rfl
  | succ n ih =>
    intro start ds hds hcov
    cases hw : get_weekday_and_increment start with
    | none => rw [enumDates, hw] at hds; exact absurd hds (by simp)
    | some pr =>
      obtain ⟨nd, wd⟩ := pr
      simp only [enumDates, hw] at hds
      cases he : enumDates nd n with
      | none => rw [he] at hds; exact absurd hds (by simp)
      | some ds' =>
        rw [he] at hds
        simp only [Option.map_some', Option.some.injEq] at hds
        subst hds
        have hpm := processMeals_covered env preferences allergens start wd P k
          meals (fun m hm => hcov start (by simp) m hm)
        simp only [updateDays, hw, hpm]
        exact ih nd ds' he (fun d hd m hm => hcov d (by simp [hd]) m hm)

/-- C1: idempotence of the planning call — when the (valid) requested
date/meal range is fully covered by the slots of the existing plan `P`, a
further `update_menu` call with any preferences and allergens returns `P`
byte-identically and performs zero oracle invocations. -/
theorem update_menu_idempotent (env : DriverEnv)
    (P preferences allergens start : String) (meals : List Nat) (days : Nat)
    (ds : List String) (hds : enumDates start days = some ds)
    (hcov : ∀ d ∈ ds, ∀ m ∈ meals, (d, m) ∈ slotsOf P) :
    update_menu env (some P) preferences allergens start meals days =
      some (P, 0) :=
  updateDays_covered env preferences allergens meals P 0 days start ds hds hcov

theorem update_menu_idempotent_witness :
    enumDates "2025-11-20" 1 = some ["2025-11-20"] ∧
    (∀ d ∈ ["2025-11-20"], ∀ m ∈ [1], (d, m) ∈ slotsOf "[2025-11-20,5,1]") ∧
    update_menu trivEnv (some "[2025-11-20,5,1]") "pref" "nuts" "2025-11-20"
      [1] 1 = some ("[2025-11-20,5,1]", 0) :=
  ⟨by decide, by decide,
    update_menu_idempotent trivEnv "[2025-11-20,5,1]" "pref" "nuts"
      "2025-11-20" [1] 1 ["2025-11-20"] (by decide) (by decide)⟩

theorem extendsPlan_refl (P : String) : extendsPlan P P :=
  ⟨[], by simp, by simp, by simp⟩

theorem slotsOf_eq_append {P Q : String} {L : List RawTriple}
    (h : scanTriples Q.data = scanTriples P.data ++ L) :
    slotsOf Q = slotsOf P ++ L.map slotOfRaw := by
  simp only [slotsOf, h, List.map_append]

theorem extendsPlan_trans {P Q R : String}
    (h1 : extendsPlan P Q) (h2 : extendsPlan Q R) : extendsPlan P R := by
  obtain ⟨L1, e1, f1, n1⟩ := h1
  obtain ⟨L2, e2, f2, n2⟩ := h2
  refine ⟨L1 ++ L2, ?_, ?_, ?_⟩
  · rw [e2, e1, List.append_assoc]
  · intro t ht
    rcases List.mem_append.mp ht with h | h
    · exact f1 t h
    · intro hP
      apply f2 t h
      rw [slotsOf_eq_append e1]
      exact List.mem_append.mpr (Or.inl hP)
  · rw [List.map_append, List.nodup_append]
    refine ⟨n1, n2, ?_⟩
    intro x hx1 hx2
    obtain ⟨t, ht, rfl⟩ := List.mem_map.mp hx2
    apply f2 t ht
    rw [slotsOf_eq_append e1]
    exact List.mem_append.mpr (Or.inr hx1)

theorem extendsPlan_snoc (P date : String) (itm mn : Nat)
    (hwf : dateWF date.data = true) (hm : mn = 1 ∨ mn = 2 ∨ mn = 3)
    (hnot : (date, mn) ∉ slotsOf P) :
    extendsPlan P (P ++ renderEntry date itm mn) := by
  refine ⟨[⟨date.data, itm, some mn⟩],
    scanTriples_snoc_render P date itm mn hwf hm, ?_, by simp⟩
  intro t ht
  simp only [List.mem_singleton] at ht
  subst ht
  have hsr : slotOfRaw ⟨date.data, itm, some mn⟩ = (date, mn) := rfl
  rw [hsr]
  exact hnot

theorem processMeals_extends (env : DriverEnv)
    (preferences allergens date weekday : String)
    (hwf : dateWF date.data = true) :
    ∀ (meals : List Nat) (st st' : String × Nat),
      processMeals env preferences allergens date weekday st meals = some st' →
      extendsPlan st.1 st'.1 := by
  intro meals
  induction meals with
  | nil =>
    intro st st' h
    simp only [processMeals, Option.some.injEq] at h
    subst h
    exact extendsPlan_refl _
  | cons mn rest ih =>
    intro st st' h
    simp only [processMeals] at h
    by_cases ht : slotTaken (parse_generated_menu (some st.1)) date mn = true
    · rw [if_pos ht] at h
      exact ih st st' h
    · rw [if_neg ht] at h
      cases hm : get_meal_and_order_time mn with
      | none => rw [hm] at h; exact absurd h (by simp)
      | some pr =>
        obtain ⟨meal_name, order_time⟩ := pr
        simp only [hm] at h
        cases hi : slotItem env preferences allergens weekday order_time
            meal_name with
        | none =>
          simp only [hi] at h
          exact ih (st.1, st.2 + 1) st' h
        | some itm =>
          simp only [hi] at h
          have h2 := ih (st.1 ++ renderEntry date itm mn, st.2 + 1) st' h
          refine extendsPlan_trans ?_ h2
          exact extendsPlan_snoc st.1 date itm mn hwf (get_meal_mem hm)
            (fun hmem => ht ((slotTaken_iff st.1 date mn).mpr hmem))

theorem updateDays_extends (env : DriverEnv) (preferences allergens : String)
    (meals : List Nat) :
    ∀ (days : Nat) (start : String) (st st' : String × Nat),
      updateDays env preferences allergens meals st start days = some st' →
      extendsPlan st.1 st'.1 := by
  intro days
  induction days with
  | zero =>
    intro start st st' h
    simp only [updateDays, Option.some.injEq] at h
    subst h
    exact extendsPlan_refl _
  | succ n ih =>
    intro start st st' h
    cases hw : get_weekday_and_increment start with
    | none =>
      simp only [updateDays, hw] at h
      exact absurd h (by simp)
    | some pr =>
      obtain ⟨nd, wd⟩ := pr
      simp only [updateDays, hw] at h
      cases hp : processMeals env preferences allergens start wd st meals with
      | none =>
        simp only [hp] at h
        exact absurd h (by simp)
      | some st2 =>
        simp only [hp] at h
        exact extendsPlan_trans
          (processMeals_extends env preferences allergens start wd
            (weekday_dateWF hw) meals st st2 hp)
          (ih nd st2 st' h)

/-- C2: the non-overwrite invariant — every successful `update_menu` call
only appends: the output scan is the input scan plus triples whose slots
are fresh and pairwise distinct; every output entry on an input slot is an
input entry unchanged (same item, any preferences or allergens); and
at-most-one-entry-per-slot is preserved. -/
theorem update_menu_non_overwrite (env : DriverEnv) (menu : Option String)
    (preferences allergens start : String) (meals : List Nat) (days : Nat)
    (Q : String) (k : Nat)
    (h : update_menu env menu preferences allergens start meals days =
      some (Q, k)) :
    ∃ L : List RawTriple,
      scanTriples Q.data = scanTriples (menu.getD "").data ++ L ∧
      (∀ t ∈ L, slotOfRaw t ∉ slotsOf (menu.getD "")) ∧
      (L.map slotOfRaw).Nodup ∧
      (∀ t ∈ scanTriples Q.data,
        slotOfRaw t ∈ slotsOf (menu.getD "") →
          t ∈ scanTriples (menu.getD "").data) ∧
      ((slotsOf (menu.getD "")).Nodup → (slotsOf Q).Nodup) := by
  have hx : extendsPlan (menu.getD "") Q :=
    updateDays_extends env preferences allergens meals days start
      (menu.getD "", 0) (Q, k) h
  obtain ⟨L, e, f, n⟩ := hx
  refine ⟨L, e, f, n, ?_, ?_⟩
  · intro t ht hslot
    rw [e] at ht
    rcases List.mem_append.mp ht with h1 | h1
    · exact h1
    · exact absurd hslot (f t h1)
  · intro hnd
    rw [slotsOf_eq_append e, List.nodup_append]
    refine ⟨hnd, n, ?_⟩
    intro x hx1 hx2
    obtain ⟨t, ht, rfl⟩ := List.mem_map.mp hx2
    exact f t ht hx1

theorem update_menu_non_overwrite_witness :
    update_menu trivEnv (some "[2025-11-20,5,1]") "p" "a" "2025-11-20" [1] 1 =
      some ("[2025-11-20,5,1]", 0) ∧
    ∃ L : List RawTriple,
      scanTriples ("[2025-11-20,5,1]" : String).data =
        scanTriples ((some "[2025-11-20,5,1]" : Option String).getD "").data ++ L ∧
      (∀ t ∈ L,
        slotOfRaw t ∉ slotsOf ((some "[2025-11-20,5,1]" : Option String).getD "")) ∧
      (L.map slotOfRaw).Nodup ∧
      (∀ t ∈ scanTriples ("[2025-11-20,5,1]" : String).data,
        slotOfRaw t ∈ slotsOf ((some "[2025-11-20,5,1]" : Option String).getD "") →
          t ∈ scanTriples ((some "[2025-11-20,5,1]" : Option String).getD "").data) ∧
      ((slotsOf ((some "[2025-11-20,5,1]" : Option String).getD "")).Nodup →
        (slotsOf "[2025-11-20,5,1]").Nodup) :=
  ⟨by decide,
    update_menu_non_overwrite trivEnv (some "[2025-11-20,5,1]") "p" "a"
      "2025-11-20" [1] 1 "[2025-11-20,5,1]" 0 (by decide)⟩

/-! ### C9: slot-order commutativity -/

theorem processSlots_append (env : DriverEnv) (preferences allergens : String) :
    ∀ (l1 l2 : List (String × Nat)) (st : String × Nat),
      processSlots env preferences allergens st (l1 ++ l2) =
        match processSlots env preferences allergens st l1 with
        | none => none
        | some st2 => processSlots env preferences allergens st2 l2 := by
  intro l1
  induction l1 with
  | nil => intro l2 st; rfl
  | cons s rest ih =>
    intro l2 st
    simp only [List.cons_append, processSlots]
    cases hf : fillSlot env preferences allergens st s with
    | none => rfl
    | some st2 => exact ih l2 st2

theorem processMeals_eq_slots (env : DriverEnv)
    (preferences allergens date : String) {nd wd : String}
    (hw : get_weekday_and_increment date = some (nd, wd)) :
    ∀ (meals : List Nat) (st : String × Nat),
      processMeals env preferences allergens date wd st meals =
        processSlots env preferences allergens st
          (meals.map (fun m => (date, m))) := by
  intro meals
  induction meals with
  | nil => intro st; rfl
  | cons mn rest ih =>
    intro st
    have hfill : fillSlot env preferences allergens st (date, mn) =
        if slotTaken (parse_generated_menu (some st.1)) date mn then some st
        else
          match get_meal_and_order_time mn with
          | none => none
          | some (meal_name, order_time) =>
            match slotItem env preferences allergens wd order_time meal_name with
            | none => some (st.1, st.2 + 1)
            | some itm => some (st.1 ++ renderEntry date itm mn, st.2 + 1) := by
      simp only [fillSlot, hw]
    simp only [List.map_cons, processSlots, hfill, processMeals]
    by_cases ht : slotTaken (parse_generated_menu (some st.1)) date mn = true
    · rw [if_pos ht, if_pos ht]
      exact ih st
    · rw [if_neg ht, if_neg ht]
      cases hm : get_meal_and_order_time mn with
      | none => rfl
      | some pr =>
        obtain ⟨meal_name, order_time⟩ := pr
        simp only
        cases hi : slotItem env preferences allergens wd order_time meal_name with
        | none => exact ih (st.1, st.2 + 1)
        | some itm => exact ih (st.1 ++ renderEntry date itm mn, st.2 + 1)

theorem updateDays_eq_slots (env : DriverEnv) (preferences allergens : String)
    (meals : List Nat) :
    ∀ (days : Nat) (start : String) (ds : List String),
      enumDates start days = some ds →
      ∀ st : String × Nat,
        updateDays env preferences allergens meals st start days =
          processSlots env preferences allergens st
            (ds.flatMap (fun d => meals.map (fun m => (d, m)))) := by
  intro days
  induction days with
  | zero =>
    intro start ds hds st
    simp only [enumDates, Option.some.injEq] at hds
    subst hds
    rfl
  | succ n ih =>
    intro start ds hds st
    cases hw : get_weekday_and_increment start with
    | none => rw [enumDates, hw] at hds; exact absurd hds (by simp)
    | some pr =>
      obtain ⟨nd, wd⟩ := pr
      simp only [enumDates, hw] at hds
      cases he : enumDates nd n with
      | none => rw [he] at hds; exact absurd hds (by simp)
      | some ds' =>
        rw [he] at hds
        simp only [Option.map_some', Option.some.injEq] at hds
        subst hds
        simp only [updateDays, hw, List.flatMap_cons]
        rw [processSlots_append]
        rw [← processMeals_eq_slots env preferences allergens start hw meals st]
        cases hp : processMeals env preferences allergens start wd st meals with
        | none => rfl
        | some st2 => exact ih nd ds' he st2

theorem slotFills_congr (env : DriverEnv) (preferences allergens : String)
    {tk1 tk2 : List (String × Nat)} (u : String × Nat)
    (h : u ∈ tk1 ↔ u ∈ tk2) :
    slotFills env preferences allergens tk1 u =
      slotFills env preferences allergens tk2 u := by
  cases hw : get_weekday_and_increment u.1 with
  | none => simp only [slotFills, hw]
  | some pr =>
    obtain ⟨nd, wd⟩ := pr
    simp only [slotFills, hw]
    by_cases hin : u ∈ tk1
    · rw [if_pos hin, if_pos (h.mp hin)]
    · rw [if_neg hin, if_neg (fun hx => hin (h.mpr hx))]

theorem slotFills_some_not_mem {env : DriverEnv}
    {preferences allergens : String} {tk : List (String × Nat)}
    {u : String × Nat} {x : RawTriple}
    (h : slotFills env preferences allergens tk u = some x) : u ∉ tk := by
  cases hw : get_weekday_and_increment u.1 with
  | none =>
    simp only [slotFills, hw] at h
    exact absurd h (by simp)
  | some pr =>
    obtain ⟨nd, wd⟩ := pr
    simp only [slotFills, hw] at h
    by_cases hin : u ∈ tk
    · rw [if_pos hin] at h; exact absurd h (by simp)
    · exact hin

/-- The heart of C9: a slot run is characterized, independently of order,
by the slot set of the starting plan — it raises exactly when some slot
has an invalid date, or an invalid meal number without the duplicate check
firing; and on success the set of scanned triples of the final plan is the
starting plan's triples plus each processed slot's contribution. -/
theorem processSlots_char (env : DriverEnv) (preferences allergens : String) :
    ∀ (sl : List (String × Nat)) (st : String × Nat),
      (processSlots env preferences allergens st sl = none ↔
        ∃ s ∈ sl, slotRaises (slotsOf st.1) s) ∧
      (∀ Q k, processSlots env preferences allergens st sl = some (Q, k) →
        (scanTriples Q.data).toFinset =
          (scanTriples st.1.data).toFinset ∪
            (sl.filterMap
              (slotFills env preferences allergens (slotsOf st.1))).toFinset) := by
  intro sl
  induction sl with
  | nil =>
    intro st
    constructor
    · simp [processSlots]
    · intro Q k h
      simp only [processSlots, Option.some.injEq] at h
      subst h
      simp
  | cons s rest ih =>
    intro st
    cases hw : get_weekday_and_increment s.1 with
    | none =>
      have hfill : fillSlot env preferences allergens st s = none := by
        simp only [fillSlot, hw]
      constructor
      · simp only [processSlots, hfill]
        constructor
        · intro _
          exact ⟨s, List.mem_cons_self s rest, Or.inl hw⟩
        · intro _; trivial
      · intro Q k h
        simp only [processSlots, hfill] at h
        exact absurd h (by simp)
    | some pr =>
      obtain ⟨nd, wd⟩ := pr
      by_cases htk : slotTaken (parse_generated_menu (some st.1)) s.1 s.2 = true
      · -- duplicate: the state is unchanged and the slot contributes nothing
        have hfill : fillSlot env preferences allergens st s = some st := by
          simp only [fillSlot, hw, htk, if_true]
        have hmem : s ∈ slotsOf st.1 := by
          have := (slotTaken_iff st.1 s.1 s.2).mp htk
          simpa using this
        have hfm : slotFills env preferences allergens (slotsOf st.1) s = none := by
          simp only [slotFills, hw]
          rw [if_pos hmem]
        obtain ⟨ih1, ih2⟩ := ih st
        constructor
        · simp only [processSlots, hfill]
          rw [ih1]
          constructor
          · rintro ⟨u, hu, hru⟩
            exact ⟨u, List.mem_cons_of_mem s hu, hru⟩
          · rintro ⟨u, hu, hru⟩
            rcases List.mem_cons.mp hu with rfl | hu2
            · rcases hru with h1 | ⟨h2, h3⟩
              · rw [hw] at h1; exact absurd h1 (by simp)
              · exact absurd hmem h3
            · exact ⟨u, hu2, hru⟩
        · intro Q k h
          simp only [processSlots, hfill] at h
          rw [ih2 Q k h]
          simp only [List.filterMap_cons, hfm]
      · have hnmem : s ∉ slotsOf st.1 := fun hx =>
          htk ((slotTaken_iff st.1 s.1 s.2).mpr (by simpa using hx))
        cases hm : get_meal_and_order_time s.2 with
        | none =>
          have hfill : fillSlot env preferences allergens st s = none := by
            simp only [fillSlot, hw]
            rw [if_neg htk, hm]
          constructor
          · simp only [processSlots, hfill]
            constructor
            · intro _
              exact ⟨s, List.mem_cons_self s rest, Or.inr ⟨hm, hnmem⟩⟩
            · intro _; trivial
          · intro Q k h
            simp only [processSlots, hfill] at h
            exact absurd h (by simp)
        | some pr2 =>
          obtain ⟨meal_name, order_time⟩ := pr2
          cases hi : slotItem env preferences allergens wd order_time
              meal_name with
          | none =>
            -- skipped-malformed-result: the plan is unchanged
            have hfill : fillSlot env preferences allergens st s =
                some (st.1, st.2 + 1) := by
              simp only [fillSlot, hw]
              rw [if_neg htk]
              simp only [hm, hi]
            have hfm : slotFills env preferences allergens (slotsOf st.1) s =
                none := by
              simp only [slotFills, hw]
              rw [if_neg hnmem]
              simp only [hm, hi]
            obtain ⟨ih1, ih2⟩ := ih (st.1, st.2 + 1)
            constructor
            · simp only [processSlots, hfill]
              rw [ih1]
              constructor
              · rintro ⟨u, hu, hru⟩
                exact ⟨u, List.mem_cons_of_mem s hu, hru⟩
              · rintro ⟨u, hu, hru⟩
                rcases List.mem_cons.mp hu with rfl | hu2
                · rcases hru with h1 | ⟨h2, -⟩
                  · rw [hw] at h1; exact absurd h1 (by simp)
                  · rw [hm] at h2; exact absurd h2 (by simp)
                · exact ⟨u, hu2, hru⟩
            · intro Q k h
              simp only [processSlots, hfill] at h
              rw [ih2 Q k h]
              simp only [List.filterMap_cons, hfm]
          | some itm =>
            -- filled: the plan gains exactly this slot's triple
            have hwf : dateWF s.1.data = true := weekday_dateWF hw
            have hm3 : s.2 = 1 ∨ s.2 = 2 ∨ s.2 = 3 := get_meal_mem hm
            have hfill : fillSlot env preferences allergens st s =
                some (st.1 ++ renderEntry s.1 itm s.2, st.2 + 1) := by
              simp only [fillSlot, hw]
              rw [if_neg htk]
              simp only [hm, hi]
            have hT : slotFills env preferences allergens (slotsOf st.1) s =
                some ⟨s.1.data, itm, some s.2⟩ := by
              simp only [slotFills, hw]
              rw [if_neg hnmem]
              simp only [hm, hi]
            have hsl2 : slotsOf (st.1 ++ renderEntry s.1 itm s.2) =
                slotsOf st.1 ++ [(s.1, s.2)] :=
              slotsOf_snoc st.1 s.1 itm s.2 hwf hm3
            obtain ⟨ih1, ih2⟩ := ih (st.1 ++ renderEntry s.1 itm s.2, st.2 + 1)
            have hstab : ∀ u,
                slotRaises (slotsOf (st.1 ++ renderEntry s.1 itm s.2)) u ↔
                  slotRaises (slotsOf st.1) u := by
              intro u
              simp only [slotRaises, hsl2, List.mem_append, List.mem_singleton]
              constructor
              · rintro (h1 | ⟨h2, h3⟩)
                · exact Or.inl h1
                · exact Or.inr ⟨h2, fun hx => h3 (Or.inl hx)⟩
              · rintro (h1 | ⟨h2, h3⟩)
                · exact Or.inl h1
                · refine Or.inr ⟨h2, ?_⟩
                  rintro (hx | hx)
                  · exact h3 hx
                  · rw [hx] at h2
                    rw [hm] at h2
                    exact absurd h2 (by simp)
            have hsub : ∀ x ∈ rest.filterMap (slotFills env preferences
                allergens (slotsOf (st.1 ++ renderEntry s.1 itm s.2))),
                x ∈ rest.filterMap
                  (slotFills env preferences allergens (slotsOf st.1)) := by
              intro x hx
              obtain ⟨u, hu, hfu⟩ := List.mem_filterMap.mp hx
              refine List.mem_filterMap.mpr ⟨u, hu, ?_⟩
              have hnin : u ∉ slotsOf (st.1 ++ renderEntry s.1 itm s.2) :=
                slotFills_some_not_mem hfu
              have hnin2 : u ∉ slotsOf st.1 := fun hx2 => hnin
                (by rw [hsl2]; exact List.mem_append.mpr (Or.inl hx2))
              rw [slotFills_congr env preferences allergens u
                (iff_of_false hnin2 hnin)]
              exact hfu
            have hsup : ∀ x ∈ rest.filterMap
                (slotFills env preferences allergens (slotsOf st.1)),
                x = (⟨s.1.data, itm, some s.2⟩ : RawTriple) ∨
                  x ∈ rest.filterMap (slotFills env preferences allergens
                    (slotsOf (st.1 ++ renderEntry s.1 itm s.2))) := by
              intro x hx
              obtain ⟨u, hu, hfu⟩ := List.mem_filterMap.mp hx
              by_cases hus : u = (s.1, s.2)
              · left
                rw [hus] at hfu
                have hfs : slotFills env preferences allergens (slotsOf st.1)
                    (s.1, s.2) = some ⟨s.1.data, itm, some s.2⟩ := hT
                have := hfs.symm.trans hfu
                exact (Option.some_inj.mp this).symm
              · right
                refine List.mem_filterMap.mpr ⟨u, hu, ?_⟩
                have hnin : u ∉ slotsOf st.1 := slotFills_some_not_mem hfu
                have hnin2 : u ∉ slotsOf (st.1 ++ renderEntry s.1 itm s.2) := by
                  rw [hsl2]
                  intro hx2
                  rcases List.mem_append.mp hx2 with hy | hy
                  · exact hnin hy
                  · exact hus (by simpa using hy)
                rw [← slotFills_congr env preferences allergens u
                  (iff_of_false hnin hnin2)]
                exact hfu
            constructor
            · simp only [processSlots, hfill]
              rw [ih1]
              constructor
              · rintro ⟨u, hu, hru⟩
                exact ⟨u, List.mem_cons_of_mem s hu, (hstab u).mp hru⟩
              · rintro ⟨u, hu, hru⟩
                rcases List.mem_cons.mp hu with rfl | hu2
                · rcases hru with h1 | ⟨h2, -⟩
                  · rw [hw] at h1; exact absurd h1 (by simp)
                  · rw [hm] at h2; exact absurd h2 (by simp)
                · exact ⟨u, hu2, (hstab u).mpr hru⟩
            · intro Q k h
              simp only [processSlots, hfill] at h
              rw [ih2 Q k h]
              have hscan : (scanTriples (st.1 ++ renderEntry s.1 itm s.2).data).toFinset =
                  insert (⟨s.1.data, itm, some s.2⟩ : RawTriple)
                    (scanTriples st.1.data).toFinset := by
                rw [scanTriples_snoc_render st.1 s.1 itm s.2 hwf hm3]
                ext y
                simp [or_comm]
              rw [hscan]
              simp only [List.filterMap_cons, hT]
              ext x
              simp only [Finset.mem_union, Finset.mem_insert,
                List.mem_toFinset, List.mem_cons]
              constructor
              · rintro ((rfl | hx) | hx)
                · exact Or.inr (Or.inl rfl)
                · exact Or.inl hx
                · exact Or.inr (Or.inr (hsub x hx))
              · rintro (hx | (rfl | hx))
                · exact Or.inl (Or.inr hx)
                · exact Or.inl (Or.inl rfl)
                · rcases hsup x hx with rfl | hx2
                  · exact Or.inl (Or.inl rfl)
                  · exact Or.inr hx2

/-- C9: slot-order commutativity — the Driver is the fold of the
single-slot step over the date×meal grid, and that fold's outcome is
order-insensitive: over a valid range `update_menu` equals the slot fold;
and for any two permuted slot lists the fold raises on one iff it raises
on the other, and on success both final plans scan to the same set of
triples (each slot's fill decision depends only on the starting plan's
(date, meal) slots, not on sibling slots). -/
theorem update_menu_slot_order_commutes (env : DriverEnv)
    (preferences allergens : String) :
    (∀ (menu : Option String) (start : String) (meals : List Nat)
        (days : Nat) (ds : List String), enumDates start days = some ds →
      update_menu env menu preferences allergens start meals days =
        processSlots env preferences allergens (menu.getD "", 0)
          (ds.flatMap (fun d => meals.map (fun m => (d, m))))) ∧
    (∀ (p0 : String × Nat) (sl1 sl2 : List (String × Nat)), sl1.Perm sl2 →
      (processSlots env preferences allergens p0 sl1 = none ↔
        processSlots env preferences allergens p0 sl2 = none) ∧
      (∀ Q1 k1 Q2 k2,
        processSlots env preferences allergens p0 sl1 = some (Q1, k1) →
        processSlots env preferences allergens p0 sl2 = some (Q2, k2) →
        (scanTriples Q1.data).toFinset = (scanTriples Q2.data).toFinset)) := by
  constructor
  · intro menu start meals days ds hds
    exact updateDays_eq_slots env preferences allergens meals days start ds hds
      (menu.getD "", 0)
  · intro p0 sl1 sl2 hperm
    obtain ⟨c1a, c1b⟩ := processSlots_char env preferences allergens sl1 p0
    obtain ⟨c2a, c2b⟩ := processSlots_char env preferences allergens sl2 p0
    constructor
    · rw [c1a, c2a]
      constructor
      · rintro ⟨u, hu, hru⟩
        exact ⟨u, hperm.mem_iff.mp hu, hru⟩
      · rintro ⟨u, hu, hru⟩
        exact ⟨u, hperm.mem_iff.mpr hu, hru⟩
    · intro Q1 k1 Q2 k2 h1 h2
      rw [c1b Q1 k1 h1, c2b Q2 k2 h2]
      congr 1
      exact List.toFinset_eq_of_perm _ _
        (hperm.filterMap (slotFills env preferences allergens (slotsOf p0.1)))

theorem update_menu_slot_order_commutes_witness :
    ([("2025-11-20", 1), ("2025-11-21", 2)] : List (String × Nat)).Perm
        [("2025-11-21", 2), ("2025-11-20", 1)] ∧
    ((processSlots trivEnv "p" "a" ("", 0)
        [("2025-11-20", 1), ("2025-11-21", 2)] = none ↔
      processSlots trivEnv "p" "a" ("", 0)
        [("2025-11-21", 2), ("2025-11-20", 1)] = none) ∧
      (∀ Q1 k1 Q2 k2,
        processSlots trivEnv "p" "a" ("", 0)
          [("2025-11-20", 1), ("2025-11-21", 2)] = some (Q1, k1) →
        processSlots trivEnv "p" "a" ("", 0)
          [("2025-11-21", 2), ("2025-11-20", 1)] = some (Q2, k2) →
        (scanTriples Q1.data).toFinset = (scanTriples Q2.data).toFinset)) :=
  ⟨by decide,
    (update_menu_slot_order_commutes trivEnv "p" "a").2 ("", 0)
      [("2025-11-20", 1), ("2025-11-21", 2)]
      [("2025-11-21", 2), ("2025-11-20", 1)] (by decide)⟩

/-- The modelled calendar agrees with every date the unit tests pin
(valid weekdays and increments, month/year/leap boundaries, and the
rejected formats and values). -/
theorem calendar_matches_tests :
    get_weekday_and_increment "2025-11-20" = some ("2025-11-21", "Thu") ∧
    get_weekday_and_increment "2025-11-17" = some ("2025-11-18", "Mon") ∧
    get_weekday_and_increment "2025-11-23" = some ("2025-11-24", "Sun") ∧
    get_weekday_and_increment "2025-12-31" = some ("2026-01-01", "Wed") ∧
    get_weekday_and_increment "2024-02-29" = some ("2024-03-01", "Thu") ∧
    get_weekday_and_increment "2025-10-14" = some ("2025-10-15", "Tue") ∧
    get_weekday_and_increment "11-20-2025" = none ∧
    get_weekday_and_increment "2025/11/20" = none ∧
    get_weekday_and_increment "not-a-date" = none ∧
    get_weekday_and_increment "2025-13-01" = none ∧
    get_weekday_and_increment "2025-02-30" = none :=
  ⟨by decide, by decide, by decide, by decide, by decide, by decide,
    by decide, by decide, by decide, by decide, by decide⟩

/-- The modelled meal mapping agrees with the unit tests. -/
theorem meal_time_matches_tests :
    get_meal_and_order_time 1 = some ("breakfast", 1000) ∧
    get_meal_and_order_time 2 = some ("lunch", 1400) ∧
    get_meal_and_order_time 3 = some ("dinner", 2000) ∧
    get_meal_and_order_time 4 = none :=
  ⟨by decide, by decide, by decide, by decide⟩

end Weeklies
